import Mathlib

/-!
# Verification of the `srtToAss` subtitle transformer of `vconcat`

This file gives a shallow embedding, in Lean, of the subtitle-transformation
pipeline implemented by the function `srtToAss` in `src/vconcat.js`
(the canonical revision at lines 1004-1117; the older revision at lines
66-135 is noted where the two differ), together with theorems settling the
frozen claims about the natural-language specification.

The JavaScript string operations used by the source (`split`, `replace`,
regular-expression matching for the four concrete regexes of the source,
`trim`, `slice`) are embedded as executable functions on `List Char`.
The host platform's date parser (`Date.parse` / `new Date`), which is not
part of the repository, is modelled from the spec; definitions doing so
say it in their doc comment.
-/

namespace Vconcat

/-! ## JS character classes -/

/-- Whitespace as matched by the JavaScript pattern `\s` (restricted to the
ASCII whitespace characters; the source's inputs are ASCII-plus-diacritics
text lines). -/
def jsWs (c : Char) : Bool :=
  c = ' ' || c = '\t' || c = '\n' || c = '\r' || c = Char.ofNat 11 || c = Char.ofNat 12

/-- Digits as matched by the JavaScript pattern `\d` (exactly `0`-`9`). -/
def isDigitChar (c : Char) : Bool :=
  c.isDigit

/-- Characters matched by the source's `timeCodeRegex` character class `[\d:,]`. -/
def isTimeChar (c : Char) : Bool :=
  c.isDigit || c = ':' || c = ','

/-! ## JS split embeddings -/

/-- Worker for `splitRunsBy`.  `inSep` records whether we are inside a
separator run whose following token has not started yet; `acc` holds the
current token reversed. -/
def runsAux (p : Char → Bool) : List Char → Bool → List Char → List (List Char)
  | [], inSep, acc => if inSep then [[]] else [acc.reverse]
  | c :: rest, inSep, acc =>
    if p c then
      if inSep then runsAux p rest true []
      else acc.reverse :: runsAux p rest true []
    else runsAux p rest false (c :: acc)

/-- JavaScript `str.split(re)` for a regex of shape `X+` (one or more
separator characters): separators are maximal runs of characters satisfying
`p`; a leading or trailing run contributes an empty token, as in JS. -/
def splitRunsBy (p : Char → Bool) (l : List Char) : List (List Char) :=
  runsAux p l false []

/-- Worker for `splitEachBy`. -/
def eachAux (p : Char → Bool) : List Char → List Char → List (List Char)
  | [], acc => [acc.reverse]
  | c :: rest, acc =>
    if p c then acc.reverse :: eachAux p rest []
    else eachAux p rest (c :: acc)

/-- JavaScript `str.split(re)` for a single-character regex class (such as
the source's `split(/\D/)`): every matching character separates, empty
tokens are kept. -/
def splitEachBy (p : Char → Bool) (l : List Char) : List (List Char) :=
  eachAux p l []

/-- Worker for `splitBlocks`. -/
def blockSplitAux : List Char → List Char → List (List Char)
  | [], acc => [acc.reverse]
  | '\n' :: '\n' :: rest, acc => acc.reverse :: blockSplitAux rest []
  | c :: rest, acc => blockSplitAux rest (c :: acc)

/-- JavaScript `str.split('\n\n')`: split on each (leftmost, non-overlapping)
occurrence of two consecutive newline characters. -/
def splitBlocks (l : List Char) : List (List Char) :=
  blockSplitAux l []

/-- JavaScript `str.split('\n')` (used through the source's per-line regex
`/^[\d]+$/gm`, which we realize line by line). -/
def lineSplit (l : List Char) : List (List Char) :=
  splitEachBy (fun c => c = '\n') l

/-- JavaScript `arr.join(sep)`. -/
def joinWith (sep : List Char) : List (List Char) → List Char
  | [] => []
  | [x] => x
  | x :: xs => x ++ sep ++ joinWith sep xs

/-- JavaScript `str.trim()` (restricted to the ASCII whitespace of `jsWs`). -/
def jsTrim (l : List Char) : List Char :=
  (((l.dropWhile jsWs).reverse.dropWhile jsWs).reverse)

/-! ## JS replace embeddings -/

/-- Index of the first occurrence of `needle` in a character list, if any. -/
def firstMatchIdx (needle : List Char) : List Char → Option Nat
  | [] => if needle.isEmpty then some 0 else none
  | c :: rest =>
    if needle.isPrefixOf (c :: rest) then some 0
    else (firstMatchIdx needle rest).map (· + 1)

/-- JavaScript `str.replace(needle, repl)` with a plain-string pattern:
only the first occurrence is replaced.  (The `$`-pattern expansion JS
performs inside `repl` is not modelled; no replacement string produced by
the source contains a `$`-pattern.) -/
def replaceFirstL (needle repl l : List Char) : List Char :=
  match firstMatchIdx needle l with
  | some i => l.take i ++ repl ++ l.drop (i + needle.length)
  | none => l

/-- Worker for `timeTokens`: `cur` is the current (reversed) partial token. -/
def ttAux : List Char → List Char → List (List Char)
  | [], cur => if cur.isEmpty then [] else [cur.reverse]
  | c :: rest, cur =>
    if isTimeChar c then ttAux rest (c :: cur)
    else if cur.isEmpty then ttAux rest []
    else cur.reverse :: ttAux rest []

/-- All matches, in order, of the source's `timeCodeRegex` `/([\d:,]+)/gi`
in a line: the maximal nonempty runs of digit/colon/comma characters.
The source's two successive `exec` calls read the first two entries. -/
def timeTokens (l : List Char) : List (List Char) :=
  ttAux l []

/-- First match of the source's `dateRegex` `/\[([^\]]+)\]/g`: the content
(capture group 1) of the first bracketed span holding at least one
non-`]` character. -/
def firstBracketContent : List Char → Option (List Char)
  | [] => none
  | c :: rest =>
    if c = '[' then
      match rest.takeWhile (fun x => x ≠ ']'), rest.dropWhile (fun x => x ≠ ']') with
      | [], _ => firstBracketContent rest
      | _, [] => firstBracketContent rest
      | content, _ :: _ => some content
    else firstBracketContent rest

/-- Worker for `replaceBracketAll`.  `inBr` records that an unclosed `[` has
been read; `acc` holds (reversed) the characters read since that `[`. -/
def rbAux (repl : List Char) : List Char → Bool → List Char → List Char
  | [], false, _ => []
  | [], true, acc => '[' :: acc.reverse
  | c :: rest, false, _ =>
    if c = '[' then rbAux repl rest true []
    else c :: rbAux repl rest false []
  | c :: rest, true, acc =>
    if c = ']' then
      if acc.isEmpty then '[' :: ']' :: rbAux repl rest false []
      else repl ++ rbAux repl rest false []
    else rbAux repl rest true (c :: acc)

/-- JavaScript `str.replace(/\[([^\]]+)\]/g, repl)`: every (leftmost,
non-overlapping) bracketed span with nonempty content is replaced by
`repl`.  This is the global replacement the source performs on the cue
text once a date was recovered. -/
def replaceBracketAll (repl l : List Char) : List Char :=
  rbAux repl l false []

/-! ## The speed-artifact stripper `/\s+0K?MP?\/?H/gi` -/

/-- States of the scanner for `/\s+0K?MP?\/?H/gi`: `norm` outside a
candidate match, `ws` inside the leading whitespace run, and `q1`-`q5`
after reading `0`, `0K`, `0K?M`, `0K?MP` and `0K?MP?/` respectively. -/
inductive SpState where
  | norm | ws | q1 | q2 | q3 | q4 | q5
deriving DecidableEq, Repr

/-- Worker for `stripSpeed`: a deterministic scanner equivalent to the
global, case-insensitive JS regex replace (the pattern is backtracking-free:
each optional letter differs from every character admissible after it).
`pend` holds, reversed, the characters of the candidate match read so far;
on failure they are flushed verbatim and scanning restarts at the failing
character. -/
def ssAux : List Char → SpState → List Char → List Char
  | [], .norm, _ => []
  | [], _, pend => pend.reverse
  | c :: rest, .norm, _ =>
    if jsWs c then ssAux rest .ws [c] else c :: ssAux rest .norm []
  | c :: rest, .ws, pend =>
    if jsWs c then ssAux rest .ws (c :: pend)
    else if c = '0' then ssAux rest .q1 (c :: pend)
    else pend.reverse ++ c :: ssAux rest .norm []
  | c :: rest, .q1, pend =>
    if c.toLower = 'k' then ssAux rest .q2 (c :: pend)
    else if c.toLower = 'm' then ssAux rest .q3 (c :: pend)
    else if jsWs c then pend.reverse ++ ssAux rest .ws [c]
    else pend.reverse ++ c :: ssAux rest .norm []
  | c :: rest, .q2, pend =>
    if c.toLower = 'm' then ssAux rest .q3 (c :: pend)
    else if jsWs c then pend.reverse ++ ssAux rest .ws [c]
    else pend.reverse ++ c :: ssAux rest .norm []
  | c :: rest, .q3, pend =>
    if c.toLower = 'p' then ssAux rest .q4 (c :: pend)
    else if c = '/' then ssAux rest .q5 (c :: pend)
    else if c.toLower = 'h' then ssAux rest .norm []
    else if jsWs c then pend.reverse ++ ssAux rest .ws [c]
    else pend.reverse ++ c :: ssAux rest .norm []
  | c :: rest, .q4, pend =>
    if c = '/' then ssAux rest .q5 (c :: pend)
    else if c.toLower = 'h' then ssAux rest .norm []
    else if jsWs c then pend.reverse ++ ssAux rest .ws [c]
    else pend.reverse ++ c :: ssAux rest .norm []
  | c :: rest, .q5, pend =>
    if c.toLower = 'h' then ssAux rest .norm []
    else if jsWs c then pend.reverse ++ ssAux rest .ws [c]
    else pend.reverse ++ c :: ssAux rest .norm []

/-- JavaScript `str.replace(/\s+0K?MP?\/?H/gi, '')` from the source
(both revisions, lines 126 and 1107): remove every substring made of one
or more whitespace characters, a literal `0`, an optional `K`, a `M`, an
optional `P`, an optional `/` and a final `H`, letters case-insensitive. -/
def stripSpeed (l : List Char) : List Char :=
  ssAux l .norm []

/-- Membership of a character list in the language of the tail
`0K?MP?\/?H` of the speed regex (case-insensitive), listed shape by shape. -/
def speedTok : List Char → Bool
  | [c0, c1, c2] => c0 = '0' && c1.toLower = 'm' && c2.toLower = 'h'
  | [c0, c1, c2, c3] =>
    c0 = '0' &&
      ((c1.toLower = 'k' && c2.toLower = 'm' && c3.toLower = 'h') ||
       (c1.toLower = 'm' && c2.toLower = 'p' && c3.toLower = 'h') ||
       (c1.toLower = 'm' && c2 = '/' && c3.toLower = 'h'))
  | [c0, c1, c2, c3, c4] =>
    c0 = '0' &&
      ((c1.toLower = 'k' && c2.toLower = 'm' && c3.toLower = 'p' && c4.toLower = 'h') ||
       (c1.toLower = 'k' && c2.toLower = 'm' && c3 = '/' && c4.toLower = 'h') ||
       (c1.toLower = 'm' && c2.toLower = 'p' && c3 = '/' && c4.toLower = 'h'))
  | [c0, c1, c2, c3, c4, c5] =>
    c0 = '0' && c1.toLower = 'k' && c2.toLower = 'm' && c3.toLower = 'p' &&
      c4 = '/' && c5.toLower = 'h'
  | _ => false

/-! ## The platform date model

The source calls the host's `Date.parse` and `new Date(...)` (platform
builtins, not repository code) and then reads the local-time accessors
`getFullYear`, `getMonth`, `getDate`, `getDay`, `getHours`, `getMinutes`,
`getSeconds`. -/

/-- A parsed date as observed through the JS `Date` accessors: `month` is
one-based here (the accessor `getMonth` subtracts one). -/
structure JsDate where
  year : Nat
  month : Nat
  day : Nat
  hour : Nat
  minute : Nat
  second : Nat
deriving DecidableEq, Repr

/-- Gregorian leap-year test. -/
def isLeap (y : Nat) : Bool :=
  (y % 4 = 0 && y % 100 ≠ 0) || y % 400 = 0

/-- Length of a (one-based) month. -/
def daysInMonth (y m : Nat) : Nat :=
  if m = 2 then (if isLeap y then 29 else 28)
  else if m = 4 || m = 6 || m = 9 || m = 11 then 30
  else 31

/-- Days from the Unix epoch (1970-01-01) to the given civil date
(negative before the epoch); the standard era-based Gregorian count. -/
def epochDays (d : JsDate) : Int :=
  let y : Int := if d.month ≤ 2 then (d.year : Int) - 1 else (d.year : Int)
  let era : Int := (if 0 ≤ y then y else y - 399) / 400
  let yoe : Int := y - era * 400
  let mp : Int := if d.month > 2 then (d.month : Int) - 3 else (d.month : Int) + 9
  let doy : Int := (153 * mp + 2) / 5 + (d.day : Int) - 1
  let doe : Int := yoe * 365 + yoe / 4 - yoe / 100 + doy
  era * 146097 + doe - 719468

/-- The millisecond timestamp `Date.parse` returns for a parsed date.
The platform's local timezone offset is modelled as zero. -/
def epochMs (d : JsDate) : Int :=
  (((epochDays d * 24 + (d.hour : Int)) * 60 + (d.minute : Int)) * 60 + (d.second : Int)) * 1000

/-- JS `date.getDay()`: day of week, `0` = Sunday. -/
def jsGetDay (d : JsDate) : Nat :=
  ((epochDays d + 4) % 7).toNat

/-- Reads a maximal digit run; yields its value, its digit count and the rest. -/
def natOfDigits (ds : List Char) : Nat :=
  ds.foldl (fun a c => a * 10 + (c.toNat - 48)) 0

/-- Reads a maximal nonempty digit run from the front of `l`. -/
def readNat (l : List Char) : Option (Nat × Nat × List Char) :=
  match l.takeWhile isDigitChar with
  | [] => none
  | ds => some (natOfDigits ds, ds.length, l.dropWhile isDigitChar)

/-- Consumes an expected single character. -/
def expectChar (c : Char) : List Char → Option (List Char)
  | x :: rest => if x = c then some rest else none
  | [] => none

/-- Reads a `HH:MM:SS`-shaped time (fields of one or two digits, in range). -/
def readTime (l : List Char) : Option (Nat × Nat × Nat × List Char) :=
  match readNat l with
  | none => none
  | some (h, nh, l) =>
    if nh = 0 || nh > 2 || h > 23 then none else
    match expectChar ':' l with
    | none => none
    | some l =>
      match readNat l with
      | none => none
      | some (mi, nmi, l) =>
        if nmi = 0 || nmi > 2 || mi > 59 then none else
        match expectChar ':' l with
        | none => none
        | some l =>
          match readNat l with
          | none => none
          | some (s, ns, l) =>
            if ns = 0 || ns > 2 || s > 59 then none else some (h, mi, s, l)

/-- Modelled from the spec: the host platform's general-purpose date parser
(`Date.parse` / `new Date`), which is a platform builtin and not code of
this repository.  Following the spec (§4.3 primary parse, §8: content
shaped `DD.MM.YYYY HH:MM:SS` is unparseable by the primary parser while its
`YYYY-MM-DD`-reversed form parses), the model accepts ISO-like input:
a four-digit year, `-`, a one- or two-digit month, `-`, a one- or two-digit
day, optionally followed by a time as ` HH:MM:SS` or `THH:MM:SS` with an
optional trailing `Z`; fields must be in calendar range.  Every other shape
is unparseable (JS `NaN`, here `none`).  The local timezone offset is
modelled as zero. -/
def jsDateParse (s : String) : Option JsDate :=
  match readNat s.data with
  | none => none
  | some (y, ny, l) =>
    if ny ≠ 4 then none else
    match expectChar '-' l with
    | none => none
    | some l =>
      match readNat l with
      | none => none
      | some (mo, nmo, l) =>
        if nmo = 0 || nmo > 2 || mo = 0 || mo > 12 then none else
        match expectChar '-' l with
        | none => none
        | some l =>
          match readNat l with
          | none => none
          | some (d, nd, l) =>
            if nd = 0 || nd > 2 || d = 0 || d > daysInMonth y mo then none else
            match l with
            | [] => some ⟨y, mo, d, 0, 0, 0⟩
            | ' ' :: t =>
              match readTime t with
              | some (h, mi, sec, []) => some ⟨y, mo, d, h, mi, sec⟩
              | _ => none
            | 'T' :: t =>
              match readTime t with
              | some (h, mi, sec, []) => some ⟨y, mo, d, h, mi, sec⟩
              | some (h, mi, sec, ['Z']) => some ⟨y, mo, d, h, mi, sec⟩
              | _ => none
            | _ => none

/-- Truthiness of `Date.parse(s)` as used by the source's
`if (Date.parse(dateTimeString))`: both `NaN` (parse failure) and the
number `0` (the Unix epoch) are falsy. -/
def dateParseTruthy (s : String) : Bool :=
  match jsDateParse s with
  | some d => epochMs d ≠ 0
  | none => false

/-! ## The date formatter -/

/-- The source's fixed Romanian month table (line 1040). -/
def roMonths : List String :=
  ["ianuarie", "februarie", "martie", "aprilie", "mai", "iunie", "iulie",
   "august", "septembrie", "octombrie", "noiembrie", "decembrie"]

/-- The source's fixed Romanian weekday table (line 1041), Sunday first. -/
def roDays : List String :=
  ["duminică", "luni", "marți", "miercuri", "joi", "vineri", "sîmbătă"]

/-- JS `n.toString().padStart(2, '0')` for `n ≤ 99`. -/
def pad2 (n : Nat) : String :=
  if n < 10 then "0" ++ toString n else toString n

/-- The source's built-in fallback formatter (lines 1079-1081 and
1096-1098).  The `Intl` locale path (`isLocaleSupported`) is a platform
capability modelled as unavailable, per the spec's §4.3.3/§9 note that both
formatters render the same field content. -/
def formatDate (d : JsDate) : String :=
  roDays.getD (jsGetDay d) "" ++ ", " ++ toString d.day ++ " " ++
    roMonths.getD (d.month - 1) "" ++ " " ++ toString d.year ++ ", " ++
    toString d.hour ++ ":" ++ pad2 d.minute ++ ":" ++ pad2 d.second

/-! ## The embedded date/time normalizer (source lines 1067-1105) -/

/-- The retry string the fallback builds (source lines 1086-1089): split the
bracketed content on whitespace, reverse the date token's digit fields and
rejoin them with hyphens, then reattach the second token through a JS
template literal (an absent second token prints as `undefined`). -/
def fallbackDateTimeString (content : List Char) : List Char :=
  let parts := splitRunsBy jsWs content
  let dateString := parts.getD 0 []
  let timeString := match parts.get? 1 with
    | some t => t
    | none => "undefined".data
  if dateString.isEmpty then content
  else joinWith ['-'] (splitEachBy (fun c => !isDigitChar c) dateString).reverse
         ++ ' ' :: timeString

/-- The formatted replacement text the source computes for a bracketed
content, or `[]` when neither the primary parse nor the fallback re-parse
yields a truthy timestamp (source lines 1070-1101). -/
def newDateTextFor (content : List Char) : List Char :=
  if dateParseTruthy (String.mk content) then
    match jsDateParse (String.mk content) with
    | some d => (formatDate d).data
    | none => []
  else
    let s2 := fallbackDateTimeString content
    if dateParseTruthy (String.mk s2) then
      match jsDateParse (String.mk s2) with
      | some d => (formatDate d).data
      | none => []
    else []

/-- The date-normalization step applied to the joined cue text (source
lines 1068-1105): find the first bracketed span; when a date was recovered,
replace  globally through the `g`-flagged `dateRegex`. -/
def dateStep (text : List Char) : List Char :=
  match firstBracketContent text with
  | none => text
  | some content =>
    let nd := newDateTextFor content
    if nd.isEmpty then text else replaceBracketAll nd text

/-! ## The cue pipeline (source lines 1046-1113) -/

/-- Error raised by the JS runtime when array destructuring of a failed
`exec` result (`null`) is attempted — the malformed-cue abort of the spec. -/
inductive JsError where
  | typeError
deriving DecidableEq, Repr

deriving instance DecidableEq for Except

/-- The timestamp re-encoding of the source (lines 1059-1064):
`.replace(',', '.')` (first occurrence) then `.slice(1, -1)`. -/
def reencodeTimeToken (tok : List Char) : List Char :=
  ((replaceFirstL [','] ['.'] tok).drop 1).dropLast

/-- The source's dialogue-line template (line 1023). -/
def lineTemplate : List Char :=
  "Dialogue: 0,{start},{end},Default,,0,0,0,,{text}".data

/-- The three successive `.replace` calls of source lines 1108-1111. -/
def renderLine (st en tx : List Char) : List Char :=
  replaceFirstL "{text}".data tx
    (replaceFirstL "{end}".data en
      (replaceFirstL "{start}".data st lineTemplate))

/-- The speed-artifact stripping applied after date normalization
(source line 1107), then nothing else touches the text. -/
def processCueText (textJoined : List Char) : List Char :=
  stripSpeed (dateStep textJoined)

/-- The times line of the source's destructuring
`[timesLine, ...textLines] = line.split(/\n+/gm)` (line 1054). -/
def timesLineOf (block : List Char) : List Char :=
  (splitRunsBy (fun c => c = '\n') block).getD 0 []

/-- The source's `textLines.join('\\N')` over the remaining lines
(lines 1054-1055). -/
def textJoinedOf (block : List Char) : List Char :=
  joinWith ['\\', 'N'] ((splitRunsBy (fun c => c = '\n') block).drop 1)

/-- The body of the source's `forEach` (lines 1052-1113) for one cue block
(already index-stripped): split into lines on `\n` runs, take the first as
the times line, join the rest with the literal `\N`, extract the first two
time tokens (a `TypeError` escapes when fewer exist), re-encode them and
render one dialogue line. -/
def processBlock (block : List Char) : Except JsError (List Char) :=
  match timeTokens (timesLineOf block) with
  | t0 :: t1 :: _ =>
    Except.ok (renderLine (reencodeTimeToken t0) (reencodeTimeToken t1)
      (processCueText (textJoinedOf block)))
  | _ => Except.error JsError.typeError

/-- The per-block map of source line 1050: `sub.replace(/^[\d]+$/gm, '').trim()` —
every line made solely of one or more digits is blanked, then the block is
trimmed. -/
def isDigitsOnly (l : List Char) : Bool :=
  !l.isEmpty && l.all isDigitChar

/-- Source line 1050 for one block. -/
def stripIndexLines (block : List Char) : List Char :=
  jsTrim (joinWith ['\n'] ((lineSplit block).map fun l => if isDigitsOnly l then [] else l))

/-- The lines of a retained block as the `forEach` sees them: the composite
of the index-line blanking and the `\n+`-run split. -/
def cueLines (block : List Char) : List (List Char) :=
  splitRunsBy (fun c => c = '\n') (stripIndexLines block)

/-- The `srtData` of source lines 1047-1050: split the file on blank lines,
drop empty blocks, blank out index lines. -/
def srtDataOf (srt : String) : List (List Char) :=
  ((splitBlocks srt.data).filter (fun b => !b.isEmpty)).map stripIndexLines

/-- The constant ASS header of source lines 1010-1022. -/
def assPreamble : String :=
  "[Script Info]
Title: Default subtitle
ScriptType: v4.00+
WrapStyle: 0
ScaledBorderAndShadow: yes
YCbCr Matrix: None

[V4+ Styles]
Format: Name, Fontname, Fontsize, PrimaryColour, SecondaryColour, OutlineColour, BackColour, Bold, Italic, Underline, StrikeOut, ScaleX, ScaleY, Spacing, Angle, BorderStyle, Outline, Shadow, Alignment, MarginL, MarginR, MarginV, Encoding
Style: Default,Roboto,16,&H00FFFFFF,&H000000FF,&H00000000,&H5A000000,-1,0,0,0,100,100,0,0,1,1,1,3,10,10,10,1

[Events]
Format: Layer, Start, End, Style, Name, MarginL, MarginR, MarginV, Effect, Text"

/-- The outcome of the filesystem probe `fs.accessSync` + `fs.statSync`
performed by `getPathInfo` for a path: either the probe throws (carrying an
error code), or it yields stats with the directory and regular-file flags.
The filesystem itself is the platform; this type is its interface exactly
as `getPathInfo` consumes it. -/
inductive FsProbe where
  | error (code : String)
  | stats (isDirectory : Bool) (isFile : Bool)
deriving DecidableEq, Repr

/-- The record `getPathInfo` returns (`lib/util.js`, concatenated into
`src/lib/parse-args.js` lines 202-222): fields `exists` (here
`pathExists` — `exists` is reserved in Lean), `isDirectory`, `isFile`,
`error`. -/
structure PathInfo where
  pathExists : Bool
  isDirectory : Bool
  isFile : Bool
  error : Option String
deriving DecidableEq, Repr

/-- `getPathInfo` from `src/lib/parse-args.js` lines 202-222: the record
starts all-false with no error; a successful probe sets `exists` and
copies the two stat flags; a thrown probe leaves the flags false and
records the error code. -/
def getPathInfo (probe : FsProbe) : PathInfo :=
  match probe with
  | .error code => ⟨false, false, false, some code⟩
  | .stats d f => ⟨true, d, f, none⟩

/-- The accumulation of the output document over the retained blocks
(source lines 1051-1113): a fold threading the `ass` string, aborted by the
first malformed cue. -/
def srtToAssBody (blocks : List (List Char)) : Except JsError (List Char) :=
  blocks.foldlM (fun acc b => (processBlock b).map fun line => acc ++ line ++ ['\n'])
    (assPreamble.data ++ ['\n'])

/-- The whole transform (source lines 1004-1117), beginning with the
source's `const fileInfo = getPathInfo(srtFile)` and its guard
`if (!fileInfo.exists || !fileInfo.isFile) return`.  `Except.ok none`
means the guard returned early: nothing was written, no exception escaped.
`Except.ok (some doc)` means `doc` was written to the destination file. -/
def srtToAss (probe : FsProbe) (srt : String) : Except JsError (Option String) :=
  if !(getPathInfo probe).pathExists || !(getPathInfo probe).isFile then Except.ok none
  else (srtToAssBody (srtDataOf srt)).map fun body => some (String.mk body)

/-! ## Spec-side definitions, for the refinement-style claims -/

/-- The spec's words for the first half of the timestamp re-encoding:
replace the comma (the single decimal-separator comma of the token) with a
period. -/
def replaceTheComma : List Char → List Char
  | [] => []
  | c :: rest => if c = ',' then '.' :: rest else c :: replaceTheComma rest

/-- The spec's words for the second half: remove the first and the last
character of the string. -/
def removeFirstLast (l : List Char) : List Char :=
  (l.drop 1).dropLast

/-- The timestamp transform exactly as the spec describes it (§4.2):
replace the comma with a period, then remove the first and last character
of the resulting string. -/
def specReencode (tok : List Char) : List Char :=
  removeFirstLast (replaceTheComma tok)

/-- Substring occurrence test (used to state that a formatted date carries
a given field). -/
def containsSub (pat l : List Char) : Bool :=
  (firstMatchIdx pat l).isSome

/-- The spec's `DD.MM.YYYY HH:MM:SS` input shape, with explicit fields. -/
def dottedStamp (dd mm yyyy hh mi ss : List Char) : List Char :=
  dd ++ '.' :: (mm ++ '.' :: (yyyy ++ ' ' :: (hh ++ ':' :: (mi ++ ':' :: ss))))

/-- The `YYYY-MM-DD HH:MM:SS` shape the fallback reversal produces. -/
def isoStamp (yyyy mm dd hh mi ss : List Char) : List Char :=
  yyyy ++ '-' :: (mm ++ '-' :: (dd ++ ' ' :: (hh ++ ':' :: (mi ++ ':' :: ss))))

/-! ## Helper lemmas -/

/-- Unfolding equation of `firstMatchIdx` on a nonempty haystack. -/
theorem firstMatchIdx_cons (needle : List Char) (c : Char) (rest : List Char) :
    firstMatchIdx needle (c :: rest) =
      if needle.isPrefixOf (c :: rest) then some 0
      else (firstMatchIdx needle rest).map (· + 1) :=
  rfl

/-- The source's generic first-occurrence `.replace(',', '.')` coincides
with the spec's "replace the comma with a period". -/
theorem replaceFirstL_comma_eq (l : List Char) :
    replaceFirstL [','] ['.'] l = replaceTheComma l := by
  induction l with
  | nil => rfl
  | cons c rest ih =>
    by_cases hc : c = ','
    · subst hc
      have hfm : firstMatchIdx [','] (',' :: rest) = some 0 := by
        rw [firstMatchIdx_cons]
        simp [List.isPrefixOf]
      simp [replaceFirstL, hfm, replaceTheComma]
    · have hpf : ([','].isPrefixOf (c :: rest)) = false := by
        rw [Bool.eq_false_iff]
        intro hT
        simp [List.isPrefixOf] at hT
        exact hc hT.symm
      have hstep : firstMatchIdx [','] (c :: rest)
          = (firstMatchIdx [','] rest).map (· + 1) := by
        rw [firstMatchIdx_cons, hpf]
        simp
      cases hfm : firstMatchIdx [','] rest with
      | none =>
        have h2 : replaceTheComma rest = rest := by
          rw [← ih]; simp [replaceFirstL, hfm]
        simp [replaceFirstL, hstep, hfm, replaceTheComma, hc, h2]
      | some j =>
        have h2 : replaceTheComma rest = rest.take j ++ ['.'] ++ rest.drop (j + 1) := by
          rw [← ih]; simp [replaceFirstL, hfm]
        simp only [replaceFirstL, hstep, hfm, replaceTheComma, if_neg hc, Option.map_some']
        rw [h2]
        simp only [List.length_singleton, List.take_succ_cons, List.drop_succ_cons,
          List.cons_append]

/-- The code's timestamp re-encoding equals the spec's described transform. -/
theorem reencode_eq_spec (tok : List Char) :
    reencodeTimeToken tok = specReencode tok := by
  simp [reencodeTimeToken, specReencode, removeFirstLast, replaceFirstL_comma_eq]

/-- A `takeWhile` across an all-satisfying segment stops at the first
failing character. -/
theorem takeWhile_all_append (p : Char → Bool) (l : List Char) (c : Char)
    (r : List Char) (hl : ∀ a ∈ l, p a = true) (hc : p c = false) :
    (l ++ c :: r).takeWhile p = l := by
  induction l with
  | nil => simp [List.takeWhile, hc]
  | cons a l ih =>
    have ha := hl a (by simp)
    simp only [List.cons_append, List.takeWhile, ha, List.append_eq]
    rw [ih fun b hb => hl b (by simp [hb])]

/-- A `dropWhile` across an all-satisfying segment stops at the first
failing character. -/
theorem dropWhile_all_append (p : Char → Bool) (l : List Char) (c : Char)
    (r : List Char) (hl : ∀ a ∈ l, p a = true) (hc : p c = false) :
    (l ++ c :: r).dropWhile p = c :: r := by
  induction l with
  | nil => simp [List.dropWhile, hc]
  | cons a l ih =>
    have ha := hl a (by simp)
    simp only [List.cons_append, List.dropWhile, ha, List.append_eq]
    exact ih fun b hb => hl b (by simp [hb])

/-- The bracket matcher skips a `[`-free leading segment. -/
theorem fbc_free (a r : List Char) (ha : ∀ c ∈ a, c ≠ '[') :
    firstBracketContent (a ++ r) = firstBracketContent r := by
  induction a with
  | nil => rfl
  | cons c a ih =>
    have hc : c ≠ '[' := ha c (by simp)
    simp only [List.cons_append, firstBracketContent, if_neg hc]
    exact ih fun b hb => ha b (by simp [hb])

/-- The bracket matcher finds the span `[x]` at the head when `x` is
nonempty and `]`-free. -/
theorem fbc_found (x r : List Char) (hx : ∀ c ∈ x, c ≠ ']') (hxne : x ≠ []) :
    firstBracketContent ('[' :: (x ++ ']' :: r)) = some x := by
  have ht : (x ++ ']' :: r).takeWhile (fun b => b ≠ ']') = x :=
    takeWhile_all_append _ x ']' r (fun a h => by simp [hx a h]) (by simp)
  have hd : (x ++ ']' :: r).dropWhile (fun b => b ≠ ']') = ']' :: r :=
    dropWhile_all_append _ x ']' r (fun a h => by simp [hx a h]) (by simp)
  unfold firstBracketContent
  rw [if_pos rfl]
  simp only [List.append_eq] at ht hd ⊢
  rw [ht, hd]
  cases x with
  | nil => exact absurd rfl hxne
  | cons c x => rfl

/-- The bracket replacer copies a `[`-free leading segment verbatim. -/
theorem rb_free (repl a r : List Char) (ha : ∀ c ∈ a, c ≠ '[') :
    rbAux repl (a ++ r) false [] = a ++ rbAux repl r false [] := by
  induction a with
  | nil => rfl
  | cons c a ih =>
    have hc : c ≠ '[' := ha c (by simp)
    simp only [List.cons_append, rbAux, if_neg hc, List.append_eq]
    rw [ih fun b hb => ha b (by simp [hb])]

/-- The bracket replacer replaces a whole `[x]` span at the head when `x`
is nonempty and `]`-free, and continues after it. -/
theorem rb_found (repl x r : List Char) (hx : ∀ c ∈ x, c ≠ ']') (hxne : x ≠ []) :
    rbAux repl ('[' :: (x ++ ']' :: r)) false [] = repl ++ rbAux repl r false [] := by
  have inner : ∀ (x' : List Char), (∀ c ∈ x', c ≠ ']') → ∀ acc, (x' ≠ [] ∨ acc ≠ []) →
      rbAux repl (x' ++ ']' :: r) true acc = repl ++ rbAux repl r false [] := by
    intro x'
    induction x' with
    | nil =>
      intro _ acc hne
      have hacc : acc ≠ [] := by
        rcases hne with h | h
        · exact absurd rfl h
        · exact h
      have hie : acc.isEmpty = false := by
        cases acc with
        | nil => exact absurd rfl hacc
        | cons _ _ => rfl
      simp [rbAux, hie]
    | cons c x' ih =>
      intro hx' acc _
      have hc : c ≠ ']' := hx' c (by simp)
      simp only [List.cons_append, rbAux, if_neg hc, List.append_eq]
      exact ih (fun b hb => hx' b (by simp [hb])) (c :: acc) (Or.inr (by simp))
  have hstep : rbAux repl ('[' :: (x ++ ']' :: r)) false []
      = rbAux repl (x ++ ']' :: r) true [] := by
    simp [rbAux]
  rw [hstep]
  exact inner x hx [] (Or.inl hxne)

/-- The bracket replacer leaves a `[`-free string unchanged. -/
theorem rb_id (repl z : List Char) (hz : ∀ c ∈ z, c ≠ '[') :
    rbAux repl z false [] = z := by
  have h := rb_free repl z [] hz
  have h0 : rbAux repl [] false [] = [] := rfl
  rw [h0, List.append_nil] at h
  exact h

/-- C3 counterexample: with two bracketed spans and a parseable first one,
the source's global `dateRegex` replacement rewrites both spans; the second
span `[keep]` does not survive as the claim states. -/
theorem c3_first_only_cex :
    dateStep "[2020-01-07 08:56:45] x [keep]".data
        = "marți, 7 ianuarie 2020, 8:56:45 x marți, 7 ianuarie 2020, 8:56:45".data ∧
      ¬ dateStep "[2020-01-07 08:56:45] x [keep]".data
        = "marți, 7 ianuarie 2020, 8:56:45 x [keep]".data := by
  decide

/-- C3 amended: when the first bracketed span's content yields a formatted
date, the normalizer replaces every bracketed span of the cue text
(the `g`-flagged pattern), not only the first: in a text
`a[x]m[y]z` with bracket-free `a`, `m`, `z`, both spans become the
formatted string `f`. -/
theorem c3_global_replace_amended (a x m y z f : List Char)
    (ha : ∀ c ∈ a, c ≠ '[') (hm : ∀ c ∈ m, c ≠ '[') (hz : ∀ c ∈ z, c ≠ '[')
    (hx : ∀ c ∈ x, c ≠ ']') (hy : ∀ c ∈ y, c ≠ ']')
    (hxne : x ≠ []) (hyne : y ≠ [])
    (hf : newDateTextFor x = f) (hfne : f ≠ []) :
    dateStep (a ++ '[' :: (x ++ ']' :: (m ++ '[' :: (y ++ ']' :: z))))
      = a ++ (f ++ (m ++ (f ++ z))) := by
  have h1 : firstBracketContent (a ++ '[' :: (x ++ ']' :: (m ++ '[' :: (y ++ ']' :: z))))
      = some x := by
    rw [fbc_free a _ ha]
    exact fbc_found x _ hx hxne
  have hfe : f.isEmpty = false := by
    cases f with
    | nil => exact absurd rfl hfne
    | cons _ _ => rfl
  unfold dateStep
  rw [h1]
  simp only [hf, hfe, Bool.false_eq_true, if_false]
  unfold replaceBracketAll
  rw [rb_free f a _ ha, rb_found f x _ hx hxne, rb_free f m _ hm,
    rb_found f y _ hy hyne, rb_id f z hz]

/-- C3 witness: the amended theorem at the counterexample's text. -/
theorem c3_global_replace_witness :
    dateStep ([] ++ '[' :: ("2020-01-07 08:56:45".data ++ ']' ::
        (" x ".data ++ '[' :: ("keep".data ++ ']' :: ([] : List Char)))))
      = [] ++ ("marți, 7 ianuarie 2020, 8:56:45".data ++ (" x ".data ++
          ("marți, 7 ianuarie 2020, 8:56:45".data ++ ([] : List Char)))) :=
  c3_global_replace_amended [] "2020-01-07 08:56:45".data " x ".data "keep".data []
    "marți, 7 ianuarie 2020, 8:56:45".data
    (by decide) (by decide) (by decide) (by decide) (by decide)
    (by decide) (by decide) (by decide) (by decide)

/-! ## Claim theorems -/

/-- C1 counterexample: on the literal times line
`"00:00:01,000 --> 00:00:04,000"` the re-encoder yields the tokens
`"0:00:01.00"` and `"0:00:04.00"`, not the `"00:00:01.000"` and
`"00:00:04.000"` the claim states. -/
theorem c1_slicing_fixture_cex :
    (timeTokens "00:00:01,000 --> 00:00:04,000".data).map reencodeTimeToken
        = ["0:00:01.00".data, "0:00:04.00".data] ∧
      ¬ (timeTokens "00:00:01,000 --> 00:00:04,000".data).map reencodeTimeToken
        = ["00:00:01.000".data, "00:00:04.000".data] := by
  decide

/-- C1 amended: applying the documented slicing rule (replace the comma by
a period, drop the first and last character) to the fixture times line
`"00:00:01,000 --> 00:00:04,000"` yields start `"0:00:01.00"` and end
`"0:00:04.00"`, and a block with that times line renders the dialogue line
with exactly those tokens. -/
theorem c1_slicing_fixture_amended :
    (timeTokens "00:00:01,000 --> 00:00:04,000".data).map reencodeTimeToken
        = ["0:00:01.00".data, "0:00:04.00".data] ∧
      processBlock "00:00:01,000 --> 00:00:04,000\nHi".data
        = Except.ok "Dialogue: 0,0:00:01.00,0:00:04.00,Default,,0,0,0,,Hi".data := by
  decide

/-- C2: every dialogue line the pipeline emits carries, in its start and
end fields, exactly the spec's character-position transform (replace the
comma with a period, then remove the first and last character) of the
first two timestamp tokens extracted from the block's times line. -/
theorem c2_token_transform (block line : List Char)
    (h : processBlock block = Except.ok line) :
    ∃ t0 t1 rest, timeTokens (timesLineOf block) = t0 :: t1 :: rest ∧
      line = renderLine (specReencode t0) (specReencode t1)
        (processCueText (textJoinedOf block)) := by
  unfold processBlock at h
  split at h
  next t0 t1 rest heq =>
    simp only [Except.ok.injEq] at h
    exact ⟨t0, t1, rest, heq, by rw [← reencode_eq_spec, ← reencode_eq_spec, ← h]⟩
  next => exact absurd h (by simp)

/-- C2 witness: the theorem applied to a concrete well-formed block. -/
theorem c2_token_transform_witness :
    ∃ t0 t1 rest,
      timeTokens (timesLineOf "00:00:01,000 --> 00:00:04,000\nHi".data)
          = t0 :: t1 :: rest ∧
        "Dialogue: 0,0:00:01.00,0:00:04.00,Default,,0,0,0,,Hi".data
          = renderLine (specReencode t0) (specReencode t1)
            (processCueText (textJoinedOf "00:00:01,000 --> 00:00:04,000\nHi".data)) :=
  c2_token_transform "00:00:01,000 --> 00:00:04,000\nHi".data
    "Dialogue: 0,0:00:01.00,0:00:04.00,Default,,0,0,0,,Hi".data (by decide)

/-- C6: the annotated text `"Text [07.01.2020 08:56:45]"` is rewritten with
the bracketed span replaced by the formatted date, which carries the year
2020 and the day-of-month 7 (rendered as `7 ianuarie 2020` — no month/day
swap). -/
theorem c6_day_month_order :
    dateStep "Text [07.01.2020 08:56:45]".data
        = "Text marți, 7 ianuarie 2020, 8:56:45".data ∧
      containsSub "2020".data (dateStep "Text [07.01.2020 08:56:45]".data) = true ∧
      containsSub " 7 ianuarie 2020".data (dateStep "Text [07.01.2020 08:56:45]".data)
        = true := by
  decide

/-- C7 counterexample: the `0` in the source regex `/\s+0K?MP?\/?H/gi` is
mandatory, so `"Speed MPH"` is left unchanged, not reduced to `"Speed"` as
the claim's optional-`0` reading asserts. -/
theorem c7_optional_zero_cex :
    stripSpeed "Speed MPH".data = "Speed MPH".data ∧
      ¬ stripSpeed "Speed MPH".data = "Speed".data := by
  decide

/-- A character whose lowercase form is `h` is not the slash. -/
theorem ne_slash_of_lower_h {c : Char} (h : c.toLower = 'h') : ¬ (c = '/') :=
  fun he => by rw [he] at h; exact absurd h (by decide)

/-- The speed scanner copies a whitespace-free segment verbatim. -/
theorem ss_norm_app (a r : List Char) (ha : ∀ c ∈ a, jsWs c = false) :
    ssAux (a ++ r) .norm [] = a ++ ssAux r .norm [] := by
  induction a with
  | nil => rfl
  | cons c a ih =>
    have hc := ha c (by simp)
    simp only [List.cons_append, ssAux, hc, Bool.false_eq_true, if_false, List.append_eq]
    rw [ih fun b hb => ha b (by simp [hb])]

/-- The speed scanner absorbs a whitespace run into its pending buffer. -/
theorem ss_ws_run (w : List Char) (hw : ∀ c ∈ w, jsWs c = true) :
    ∀ r pend, ssAux (w ++ r) .ws pend = ssAux r .ws (w.reverse ++ pend) := by
  induction w with
  | nil => intro r pend; rfl
  | cons c w ih =>
    intro r pend
    have hc := hw c (by simp)
    simp only [List.cons_append, ssAux, hc, if_true, List.append_eq]
    rw [ih (fun b hb => hw b (by simp [hb])) r (c :: pend)]
    simp

/-- From the whitespace state, reading a full `0K?MP?\/?H` token drops the
pending whitespace and the token and resumes normal scanning. -/
theorem ss_tok (tok : List Char) (h : speedTok tok = true) :
    ∀ rest pend, ssAux (tok ++ rest) .ws pend = ssAux rest .norm [] := by
  intro rest pend
  obtain _ | ⟨c0, _ | ⟨c1, _ | ⟨c2, _ | ⟨c3, _ | ⟨c4, _ | ⟨c5, _ | ⟨c6, t⟩⟩⟩⟩⟩⟩⟩ := tok
  · simp [speedTok] at h
  · simp [speedTok] at h
  · simp [speedTok] at h
  · simp only [speedTok, Bool.and_eq_true, decide_eq_true_eq, and_assoc] at h
    obtain ⟨rfl, h1, h2⟩ := h
    have hs := ne_slash_of_lower_h h2
    simp [ssAux, jsWs, h1, h2, hs]
  · simp only [speedTok, Bool.and_eq_true, Bool.or_eq_true, decide_eq_true_eq, and_assoc, or_assoc] at h
    obtain ⟨rfl, ⟨h1, h2, h3⟩ | ⟨h1, h2, h3⟩ | ⟨h1, h2, h3⟩⟩ := h
    · have hs := ne_slash_of_lower_h h3
      simp [ssAux, jsWs, h1, h2, h3, hs]
    · have hs := ne_slash_of_lower_h h3
      simp [ssAux, jsWs, h1, h2, h3, hs]
    · subst h2
      have hs := ne_slash_of_lower_h h3
      simp [ssAux, jsWs, h1, h3, hs]
  · simp only [speedTok, Bool.and_eq_true, Bool.or_eq_true, decide_eq_true_eq, and_assoc, or_assoc] at h
    obtain ⟨rfl, ⟨h1, h2, h3, h4⟩ | ⟨h1, h2, h3, h4⟩ | ⟨h1, h2, h3, h4⟩⟩ := h
    · have hs := ne_slash_of_lower_h h4
      simp [ssAux, jsWs, h1, h2, h3, h4, hs]
    · subst h3
      have hs := ne_slash_of_lower_h h4
      simp [ssAux, jsWs, h1, h2, h4, hs]
    · subst h3
      have hs := ne_slash_of_lower_h h4
      simp [ssAux, jsWs, h1, h2, h4, hs]
  · simp only [speedTok, Bool.and_eq_true, decide_eq_true_eq, and_assoc] at h
    obtain ⟨rfl, h1, h2, h3, h4, h5⟩ := h
    subst h4
    simp [ssAux, jsWs, h1, h2, h3, h5]
  · simp [speedTok] at h

/-- C7 amended: the `0` of the speed regex is mandatory.  Every substring
made of a whitespace run followed by a `0K?MP?\/?H` token (letters
case-insensitive) is removed wherever it occurs; `"Speed 0KM/H"` and
`"Speed 0MPH"` reduce to `"Speed"`, while the optional-`0` example
`"Speed MPH"` is left unchanged. -/
theorem c7_speed_strip_amended :
    (∀ a w tok rest, (∀ c ∈ a, jsWs c = false) → w ≠ [] →
        (∀ c ∈ w, jsWs c = true) → speedTok tok = true →
        stripSpeed (a ++ (w ++ (tok ++ rest))) = a ++ stripSpeed rest) ∧
      stripSpeed "Speed 0KM/H".data = "Speed".data ∧
      stripSpeed "Speed 0MPH".data = "Speed".data ∧
      stripSpeed "Speed MPH".data = "Speed MPH".data := by
  refine ⟨?_, by decide, by decide, by decide⟩
  intro a w tok rest ha hwne hw htok
  unfold stripSpeed
  rw [ss_norm_app a _ ha]
  cases w with
  | nil => exact absurd rfl hwne
  | cons w0 w' =>
    have hw0 := hw w0 (by simp)
    simp only [List.cons_append, ssAux, hw0, if_true, List.append_eq]
    rw [ss_ws_run w' (fun b hb => hw b (by simp [hb])) (tok ++ rest) [w0],
      ss_tok tok htok rest]

/-- C7 witness: the general removal lemma applied at `"Speed 0MPH"`. -/
theorem c7_speed_strip_witness :
    stripSpeed ("Speed".data ++ (" ".data ++ ("0MPH".data ++ ([] : List Char))))
      = "Speed".data ++ stripSpeed [] :=
  c7_speed_strip_amended.1 "Speed".data " ".data "0MPH".data []
    (by decide) (by decide) (by decide) (by decide)

/-- A list's optional last element is a member. -/
theorem mem_of_getLast?_eq {α : Type} {l : List α} {a : α}
    (h : l.getLast? = some a) : a ∈ l := by
  obtain ⟨hne, rfl⟩ := List.mem_getLast?_eq_getLast (Option.mem_def.mpr h)
  exact List.getLast_mem hne

/-- A nonempty list has an optional last element. -/
theorem getLast?_cons_exists {α : Type} (x : α) (xs : List α) :
    ∃ m, (x :: xs).getLast? = some m := by
  induction xs generalizing x with
  | nil => exact ⟨x, rfl⟩
  | cons y ys ih =>
    obtain ⟨m, hm⟩ := ih y
    exact ⟨m, by rw [List.getLast?_cons_cons, hm]⟩

/-- `trim` drops a leading whitespace character. -/
theorem jsTrim_cons_ws (c : Char) (l : List Char) (h : jsWs c = true) :
    jsTrim (c :: l) = jsTrim l := by
  simp [jsTrim, List.dropWhile_cons, h]

/-- `trim` is the identity on a string with non-whitespace first and last
characters. -/
theorem jsTrim_noop (l : List Char)
    (hh : ∀ c, l.head? = some c → jsWs c = false)
    (hl : ∀ c, l.getLast? = some c → jsWs c = false) :
    jsTrim l = l := by
  cases l with
  | nil => rfl
  | cons c t =>
    have hc := hh c rfl
    have h1 : (c :: t).dropWhile jsWs = c :: t := by
      rw [List.dropWhile_cons, hc]
      simp
    cases hr : (c :: t).reverse with
    | nil => exact absurd hr (by simp)
    | cons d r' =>
      have hd : jsWs d = false := by
        refine hl d ?_
        rw [← List.head?_reverse, hr]
        rfl
      have h2 : (d :: r').dropWhile jsWs = d :: r' := by
        rw [List.dropWhile_cons, hd]
        simp
      unfold jsTrim
      rw [h1, hr, h2, ← hr, List.reverse_reverse]

/-- A two-or-more-element `joinWith` unfolds one separator. -/
theorem joinWith_cons₂ (sep x y : List Char) (xs : List (List Char)) :
    joinWith sep (x :: y :: xs) = x ++ sep ++ joinWith sep (y :: xs) :=
  rfl

/-- The head character of a joined list is the head of its first piece. -/
theorem joinWith_head? (sep k : List Char) (xs : List (List Char)) (hk : k ≠ []) :
    (joinWith sep (k :: xs)).head? = k.head? := by
  cases xs with
  | nil => rfl
  | cons y ys =>
    rw [joinWith_cons₂, List.append_assoc]
    exact List.head?_append_of_ne_nil k hk

/-- The last character of a joined list is the last of its last piece. -/
theorem joinWith_getLast? (s : Char) :
    ∀ (xs : List (List Char)) (m : List Char),
      xs.getLast? = some m → m ≠ [] →
      (joinWith [s] xs).getLast? = m.getLast? := by
  intro xs
  induction xs with
  | nil => intro m hm _; exact absurd hm (by simp)
  | cons z xs ih =>
    intro m hm hmne
    cases xs with
    | nil =>
      simp only [List.getLast?_singleton, Option.some.injEq] at hm
      subst hm
      rfl
    | cons w ws =>
      rw [List.getLast?_cons_cons] at hm
      have hJ := ih m hm hmne
      have hmL : ∃ d, m.getLast? = some d := by
        cases m with
        | nil => exact absurd rfl hmne
        | cons m0 mt => exact getLast?_cons_exists m0 mt
      obtain ⟨d, hd⟩ := hmL
      have hJne : joinWith [s] (w :: ws) ≠ [] := by
        intro he
        rw [he, hd] at hJ
        exact Option.noConfusion hJ
      rw [joinWith_cons₂, List.append_assoc, List.getLast?_append_of_ne_nil _ (by simp),
        List.getLast?_append_of_ne_nil _ hJne]
      exact hJ

/-- The run splitter accumulates a separator-free segment. -/
theorem runs_acc (p : Char → Bool) (z : List Char) (hz : ∀ c ∈ z, p c = false) :
    ∀ r acc, runsAux p (z ++ r) false acc = runsAux p r false (z.reverse ++ acc) := by
  induction z with
  | nil => intro r acc; simp
  | cons c z ih =>
    intro r acc
    have hc := hz c (by simp)
    simp only [List.cons_append, runsAux, hc, Bool.false_eq_true, if_false, List.append_eq]
    rw [ih (fun b hb => hz b (by simp [hb])) r (c :: acc)]
    simp

/-- Splitting on separator runs inverts joining from inside a separator
run: empty pieces are absorbed. -/
theorem runs_join_sep (p : Char → Bool) (s : Char) (hp : p s = true) :
    ∀ (xs : List (List Char)), xs ≠ [] →
      (∀ l ∈ xs, ∀ c ∈ l, p c = false) →
      (∀ m, xs.getLast? = some m → m ≠ []) →
      runsAux p (joinWith [s] xs) true [] = xs.filter fun l => !l.isEmpty := by
  intro xs
  induction xs with
  | nil => intro h; exact absurd rfl h
  | cons z xs ih =>
    intro _ hfree hlast
    cases z with
    | nil =>
      cases xs with
      | nil => exact absurd rfl (hlast [] rfl)
      | cons w ws =>
        rw [show joinWith [s] ([] :: w :: ws) = s :: joinWith [s] (w :: ws) from rfl]
        simp only [runsAux, hp, if_true]
        rw [ih (by simp) (fun l hl => hfree l (by simp [hl]))
          (fun m hm => hlast m (by rw [List.getLast?_cons_cons]; exact hm))]
        simp [List.filter]
    | cons c z' =>
      have hcfree : ∀ b ∈ c :: z', p b = false :=
        fun b hb => hfree (c :: z') (by simp) b hb
      have hc := hcfree c (by simp)
      cases xs with
      | nil =>
        rw [show joinWith [s] [c :: z'] = c :: z' from rfl]
        simp only [runsAux, hc, Bool.false_eq_true, if_false]
        have hacc := runs_acc p z' (fun b hb => hcfree b (by simp [hb])) [] [c]
        rw [List.append_nil] at hacc
        rw [hacc]
        simp [runsAux, List.filter]
      | cons w ws =>
        rw [show joinWith [s] ((c :: z') :: w :: ws)
          = (c :: z') ++ [s] ++ joinWith [s] (w :: ws) from rfl]
        rw [List.append_assoc, List.singleton_append, List.cons_append]
        simp only [runsAux, hc, Bool.false_eq_true, if_false]
        rw [runs_acc p z' (fun b hb => hcfree b (by simp [hb])) (s :: joinWith [s] (w :: ws)) [c]]
        simp only [runsAux, hp, if_true]
        rw [ih (by simp) (fun l hl => hfree l (by simp [hl]))
          (fun m hm => hlast m (by rw [List.getLast?_cons_cons]; exact hm))]
        simp [List.filter]

/-- Splitting on separator runs inverts joining when the first and last
pieces are nonempty: exactly the nonempty pieces come back. -/
theorem runs_join (p : Char → Bool) (s : Char) (hp : p s = true)
    (k : List Char) (xs : List (List Char)) (hk : k ≠ [])
    (hfree : ∀ l ∈ k :: xs, ∀ c ∈ l, p c = false)
    (hlast : ∀ m, (k :: xs).getLast? = some m → m ≠ []) :
    runsAux p (joinWith [s] (k :: xs)) false [] = (k :: xs).filter fun l => !l.isEmpty := by
  have hkfree : ∀ b ∈ k, p b = false := fun b hb => hfree k (by simp) b hb
  cases xs with
  | nil =>
    rw [show joinWith [s] [k] = k from rfl]
    have hacc := runs_acc p k hkfree [] []
    rw [List.append_nil, List.append_nil] at hacc
    rw [hacc]
    cases k with
    | nil => exact absurd rfl hk
    | cons c k' => simp [runsAux, List.filter]
  | cons w ws =>
    rw [show joinWith [s] (k :: w :: ws) = k ++ [s] ++ joinWith [s] (w :: ws) from rfl]
    rw [List.append_assoc, List.singleton_append]
    rw [runs_acc p k hkfree (s :: joinWith [s] (w :: ws)) []]
    rw [List.append_nil]
    simp only [runsAux, hp, if_true]
    rw [runs_join_sep p s hp (w :: ws) (by simp)
      (fun l hl => hfree l (by simp [hl]))
      (fun m hm => hlast m (by rw [List.getLast?_cons_cons]; exact hm))]
    cases k with
    | nil => exact absurd rfl hk
    | cons c k' => simp [List.filter]

/-- The single-separator splitter only produces separator-free pieces. -/
theorem eachAux_free (p : Char → Bool) :
    ∀ (l acc : List Char), (∀ c ∈ acc, p c = false) →
      ∀ piece ∈ eachAux p l acc, ∀ c ∈ piece, p c = false := by
  intro l
  induction l with
  | nil =>
    intro acc hacc piece hp c hc
    simp only [eachAux, List.mem_singleton] at hp
    subst hp
    exact hacc c (by simpa using hc)
  | cons a l ih =>
    intro acc hacc piece hp c hc
    by_cases hpa : p a = true
    · simp only [eachAux, hpa, if_true, List.mem_cons] at hp
      rcases hp with rfl | hp
      · exact hacc c (by simpa using hc)
      · exact ih [] (by simp) piece hp c hc
    · have hpa' : p a = false := by
        revert hpa
        cases p a <;> simp
      simp only [eachAux, hpa', Bool.false_eq_true, if_false] at hp
      refine ih (a :: acc) ?_ piece hp c hc
      intro b hb
      rcases List.mem_cons.mp hb with rfl | hb
      · exact hpa'
      · exact hacc b hb

/-- The single-separator splitter never returns an empty piece list. -/
theorem eachAux_ne_nil (p : Char → Bool) :
    ∀ (l acc : List Char), eachAux p l acc ≠ [] := by
  intro l
  induction l with
  | nil => intro acc; simp [eachAux]
  | cons a l ih =>
    intro acc
    by_cases hpa : p a = true
    · simp [eachAux, hpa]
    · have hpa' : p a = false := by
        revert hpa
        cases p a <;> simp
      simp [eachAux, hpa', ih]

/-- `getLast?` commutes with `map`. -/
theorem getLast?_map' {α β : Type} (f : α → β) :
    ∀ (l : List α), (l.map f).getLast? = l.getLast?.map f := by
  intro l
  induction l with
  | nil => rfl
  | cons x xs ih =>
    cases xs with
    | nil => rfl
    | cons y ys =>
      rw [List.map_cons, List.map_cons, List.getLast?_cons_cons, ← List.map_cons,
        List.getLast?_cons_cons]
      exact ih

/-- Filtering the blanked lines for nonemptiness equals filtering the
original lines for not-digit-only, when no original line is empty. -/
theorem filter_map_erase :
    ∀ (ls : List (List Char)), (∀ l ∈ ls, l ≠ []) →
      ((ls.map fun l => if isDigitsOnly l then [] else l).filter fun l => !l.isEmpty)
        = ls.filter fun l => !isDigitsOnly l := by
  intro ls
  induction ls with
  | nil => intro _; rfl
  | cons l ls ih =>
    intro hne
    have ih' := ih fun x hx => hne x (by simp [hx])
    by_cases hd : isDigitsOnly l
    · simp only [List.map_cons, if_pos hd, List.filter_cons, hd]
      simpa using ih'
    · have hl : l ≠ [] := hne l (by simp)
      have hie : l.isEmpty = false := by
        cases l with
        | nil => exact absurd rfl hl
        | cons _ _ => rfl
      simp [List.filter_cons, hie, eq_false_intro hd, ih']
      rw [if_pos (by simpa using hd)]

/-- The composite of index-line blanking, trimming and `\n+`-run splitting
keeps exactly the not-digit-only lines, for blocks whose lines are nonempty
with non-whitespace boundary characters and whose last line is not
digit-only. -/
theorem trim_runs_join :
    ∀ (ls : List (List Char)),
      (∀ l ∈ ls, ∀ c ∈ l, c ≠ '\n') →
      (∀ l ∈ ls, l ≠ []) →
      (∀ l ∈ ls, isDigitsOnly l = false →
        (∀ c, l.head? = some c → jsWs c = false) ∧
        (∀ c, l.getLast? = some c → jsWs c = false)) →
      (∀ m, ls.getLast? = some m → isDigitsOnly m = false) →
      ls ≠ [] →
      splitRunsBy (fun c => c = '\n')
          (jsTrim (joinWith ['\n'] (ls.map fun l => if isDigitsOnly l then [] else l)))
        = ls.filter fun l => !isDigitsOnly l := by
  intro ls
  induction ls with
  | nil => intro _ _ _ _ h; exact absurd rfl h
  | cons l ls ih =>
    intro hnl hne hbound hlast _
    by_cases hd : isDigitsOnly l
    · obtain ⟨w, ws, rfl⟩ : ∃ w ws, ls = w :: ws := by
        cases ls with
        | nil => exact absurd (hlast l rfl) (by simp [hd])
        | cons w ws => exact ⟨w, ws, rfl⟩
      rw [show ((l :: w :: ws).map fun x => if isDigitsOnly x then [] else x)
          = [] :: ((w :: ws).map fun x => if isDigitsOnly x then [] else x) from by
        simp [hd]]
      rw [show joinWith ['\n']
          ([] :: ((w :: ws).map fun x => if isDigitsOnly x then [] else x))
          = '\n' :: joinWith ['\n'] ((w :: ws).map fun x => if isDigitsOnly x then [] else x)
        from rfl]
      unfold splitRunsBy
      rw [show jsTrim ('\n' :: joinWith ['\n']
            ((w :: ws).map fun x => if isDigitsOnly x then [] else x))
          = jsTrim (joinWith ['\n'] ((w :: ws).map fun x => if isDigitsOnly x then [] else x))
        from jsTrim_cons_ws _ _ (by decide)]
      rw [show runsAux (fun c => decide (c = '\n'))
            (jsTrim (joinWith ['\n'] ((w :: ws).map fun x => if isDigitsOnly x then [] else x)))
            false []
          = splitRunsBy (fun c => c = '\n')
            (jsTrim (joinWith ['\n'] ((w :: ws).map fun x => if isDigitsOnly x then [] else x)))
        from rfl]
      rw [ih (fun x hx => hnl x (by simp [hx])) (fun x hx => hne x (by simp [hx]))
        (fun x hx => hbound x (by simp [hx]))
        (fun m hm => hlast m (by rw [List.getLast?_cons_cons]; exact hm)) (by simp)]
      simp [List.filter_cons, hd]
    · have hlne : l ≠ [] := hne l (by simp)
      rw [show ((l :: ls).map fun x => if isDigitsOnly x then [] else x)
          = l :: (ls.map fun x => if isDigitsOnly x then [] else x) from by simp [hd]]
      obtain ⟨m, hm⟩ := getLast?_cons_exists l ls
      have hmk : isDigitsOnly m = false := hlast m hm
      have hmmem : m ∈ l :: ls := mem_of_getLast?_eq hm
      have hmne : m ≠ [] := hne m hmmem
      have hmap : (l :: ls.map fun x => if isDigitsOnly x then [] else x).getLast? = some m := by
        rw [show (l :: ls.map fun x => if isDigitsOnly x then [] else x)
            = (l :: ls).map fun x => if isDigitsOnly x then [] else x from by simp [hd]]
        rw [getLast?_map', hm]
        simp [hmk]
      have hJhead := joinWith_head? ['\n'] l (ls.map fun x => if isDigitsOnly x then [] else x) hlne
      have hJlast := joinWith_getLast? '\n'
        (l :: ls.map fun x => if isDigitsOnly x then [] else x) m hmap hmne
      have htr : jsTrim (joinWith ['\n'] (l :: ls.map fun x => if isDigitsOnly x then [] else x))
          = joinWith ['\n'] (l :: ls.map fun x => if isDigitsOnly x then [] else x) := by
        refine jsTrim_noop _ ?_ ?_
        · intro c hc
          exact (hbound l (by simp) (by simp [hd])).1 c (by rw [← hJhead]; exact hc)
        · intro c hc
          exact (hbound m hmmem hmk).2 c (by rw [← hJlast]; exact hc)
      unfold splitRunsBy
      rw [htr]
      rw [show runsAux (fun c => decide (c = '\n'))
            (joinWith ['\n'] (l :: ls.map fun x => if isDigitsOnly x then [] else x)) false []
          = splitRunsBy (fun c => c = '\n')
            (joinWith ['\n'] (l :: ls.map fun x => if isDigitsOnly x then [] else x)) from rfl]
      unfold splitRunsBy
      rw [runs_join (fun c => decide (c = '\n')) '\n' (by simp) l
        (ls.map fun x => if isDigitsOnly x then [] else x) hlne ?_ ?_]
      · rw [show (l :: ls.map fun x => if isDigitsOnly x then [] else x)
            = (l :: ls).map fun x => if isDigitsOnly x then [] else x from by simp [hd]]
        exact filter_map_erase (l :: ls) hne
      · intro piece hpiece c hc
        rcases List.mem_cons.mp hpiece with rfl | hpiece
        · simp [hnl piece (by simp) c hc]
        · obtain ⟨l', hl', rfl⟩ := List.mem_map.mp hpiece
          by_cases hd' : isDigitsOnly l'
          · rw [if_pos hd'] at hc
            exact absurd hc (by simp)
          · rw [if_neg hd'] at hc
            simp [hnl l' (by simp [hl']) c hc]
      · intro m' hm'
        rw [hmap] at hm'
        cases hm'
        exact hmne

/-- C4 counterexample: in a block that never carried an index line, the
digit-only text line `"42"` is removed as well — the parser does not keep
all lines when the first is not a bare index. -/
theorem c4_first_line_cex :
    cueLines "00:00:01,000 --> 00:00:04,000\n42\nok".data
        = ["00:00:01,000 --> 00:00:04,000".data, "ok".data] ∧
      ¬ cueLines "00:00:01,000 --> 00:00:04,000\n42\nok".data
        = ["00:00:01,000 --> 00:00:04,000".data, "42".data, "ok".data] := by
  decide

/-- C4 amended: for every retained cue block (lines nonempty, boundary
characters not whitespace, last line not digit-only), every line made
solely of one or more digits is discarded — wherever it occurs, not only at
the first position — and exactly the remaining lines survive, in order. -/
theorem c4_digit_lines_amended (b : List Char)
    (hne : ∀ l ∈ lineSplit b, l ≠ [])
    (hbound : ∀ l ∈ lineSplit b, isDigitsOnly l = false →
      (l.head?.all fun c => !jsWs c) = true ∧ (l.getLast?.all fun c => !jsWs c) = true)
    (hlast : ((lineSplit b).getLast?.all fun m => !isDigitsOnly m) = true) :
    cueLines b = (lineSplit b).filter fun l => !isDigitsOnly l := by
  have hnl : ∀ l ∈ lineSplit b, ∀ c ∈ l, c ≠ '\n' := by
    intro l hl c hc
    have := eachAux_free (fun c => decide (c = '\n')) b [] (by simp) l hl c hc
    simpa using this
  have hbound' : ∀ l ∈ lineSplit b, isDigitsOnly l = false →
      (∀ c, l.head? = some c → jsWs c = false) ∧
      (∀ c, l.getLast? = some c → jsWs c = false) := by
    intro l hl hk
    obtain ⟨h1, h2⟩ := hbound l hl hk
    constructor
    · intro c hc
      rw [hc] at h1
      simpa using h1
    · intro c hc
      rw [hc] at h2
      simpa using h2
  have hlast' : ∀ m, (lineSplit b).getLast? = some m → isDigitsOnly m = false := by
    intro m hm
    rw [hm] at hlast
    simpa using hlast
  exact trim_runs_join (lineSplit b) hnl hne hbound' hlast' (eachAux_ne_nil _ b [])

/-- C4 witness: a block with an index line, a times line, a digit-only text
line and a final text line. -/
theorem c4_digit_lines_witness :
    cueLines "12\n00:00:01,000 --> 00:00:04,000\n42\nHello".data
      = (lineSplit "12\n00:00:01,000 --> 00:00:04,000\n42\nHello".data).filter
          fun l => !isDigitsOnly l :=
  c4_digit_lines_amended "12\n00:00:01,000 --> 00:00:04,000\n42\nHello".data
    (by decide) (by decide) (by decide)

/-- C8: when the source path does not exist (the filesystem probe throws)
or exists but is not a regular file, `getPathInfo` reports `exists` false
or `isFile` false, and the transform returns normally (no exception value)
and produces no output document. -/
theorem c8_missing_source_noop (probe : FsProbe) (srt : String)
    (h : (getPathInfo probe).pathExists = false ∨ (getPathInfo probe).isFile = false) :
    srtToAss probe srt = Except.ok none := by
  rcases h with h | h <;> simp [srtToAss, h]

/-- C8 witness: a missing path, whose probe throws `ENOENT`. -/
theorem c8_missing_source_noop_witness :
    srtToAss (FsProbe.error "ENOENT") "1\n00:00:01,000 --> 00:00:02,000\nX"
      = Except.ok none :=
  c8_missing_source_noop (FsProbe.error "ENOENT")
    "1\n00:00:01,000 --> 00:00:02,000\nX" (Or.inl rfl)

/-- A `takeWhile` over an all-satisfying list keeps it whole. -/
theorem takeWhile_all (p : Char → Bool) (l : List Char)
    (hl : ∀ a ∈ l, p a = true) : l.takeWhile p = l := by
  induction l with
  | nil => rfl
  | cons a l ih =>
    have ha := hl a (by simp)
    simp only [List.takeWhile, ha]
    rw [ih fun b hb => hl b (by simp [hb])]

/-- A `dropWhile` over an all-satisfying list drops it whole. -/
theorem dropWhile_all (p : Char → Bool) (l : List Char)
    (hl : ∀ a ∈ l, p a = true) : l.dropWhile p = [] := by
  induction l with
  | nil => rfl
  | cons a l ih =>
    have ha := hl a (by simp)
    simp only [List.dropWhile, ha]
    exact ih fun b hb => hl b (by simp [hb])

/-- `readNat` on a digit run followed by a non-digit. -/
theorem readNat_digits_append (ds : List Char) (c : Char) (r : List Char)
    (hds : ds ≠ []) (hall : ∀ b ∈ ds, isDigitChar b = true)
    (hc : isDigitChar c = false) :
    readNat (ds ++ c :: r) = some (natOfDigits ds, ds.length, c :: r) := by
  unfold readNat
  rw [takeWhile_all_append _ ds c r hall hc, dropWhile_all_append _ ds c r hall hc]
  cases ds with
  | nil => exact absurd rfl hds
  | cons d ds => rfl

/-- `readNat` on a whole digit run. -/
theorem readNat_digits (ds : List Char) (hds : ds ≠ [])
    (hall : ∀ b ∈ ds, isDigitChar b = true) :
    readNat ds = some (natOfDigits ds, ds.length, []) := by
  unfold readNat
  rw [show ds.takeWhile isDigitChar = ds from takeWhile_all _ ds hall,
    show ds.dropWhile isDigitChar = [] from dropWhile_all _ ds hall]
  cases ds with
  | nil => exact absurd rfl hds
  | cons d ds => rfl

/-- The single-char splitter cuts at a separator after a clean segment. -/
theorem eachAux_seg_sep (p : Char → Bool) (u : List Char) (c : Char) (v : List Char)
    (hu : ∀ b ∈ u, p b = false) (hc : p c = true) :
    ∀ acc, eachAux p (u ++ c :: v) acc = (acc.reverse ++ u) :: eachAux p v [] := by
  induction u with
  | nil => intro acc; simp [eachAux, hc]
  | cons a u ih =>
    intro acc
    have ha := hu a (by simp)
    simp only [List.cons_append, eachAux, ha, Bool.false_eq_true, if_false, List.append_eq]
    rw [ih (fun b hb => hu b (by simp [hb])) (a :: acc)]
    simp

/-- The single-char splitter keeps one clean final segment. -/
theorem eachAux_seg_end (p : Char → Bool) (u : List Char)
    (hu : ∀ b ∈ u, p b = false) :
    ∀ acc, eachAux p u acc = [acc.reverse ++ u] := by
  induction u with
  | nil => intro acc; simp [eachAux]
  | cons a u ih =>
    intro acc
    have ha := hu a (by simp)
    simp only [eachAux, ha, Bool.false_eq_true, if_false]
    rw [ih (fun b hb => hu b (by simp [hb])) (a :: acc)]
    simp

/-- A two-token whitespace split. -/
theorem splitRuns_two (p : Char → Bool) (s : Char) (A B : List Char)
    (hs : p s = true) (hA : A ≠ []) (hB : B ≠ [])
    (hAf : ∀ c ∈ A, p c = false) (hBf : ∀ c ∈ B, p c = false) :
    splitRunsBy p (A ++ s :: B) = [A, B] := by
  have hj : joinWith [s] [A, B] = A ++ s :: B := by
    rw [joinWith_cons₂, List.append_assoc, List.singleton_append]
    rfl
  rw [← hj]
  unfold splitRunsBy
  rw [runs_join p s hs A [B] hA ?_ ?_]
  · have hBe : B.isEmpty = false := by
      cases B with
      | nil => exact absurd rfl hB
      | cons _ _ => rfl
    have hAe : A.isEmpty = false := by
      cases A with
      | nil => exact absurd rfl hA
      | cons _ _ => rfl
    simp [List.filter, hAe, hBe]
  · intro l hl
    rcases List.mem_cons.mp hl with rfl | hl
    · exact hAf
    · rcases List.mem_singleton.mp hl with rfl
      exact hBf
  · intro m hm
    rw [List.getLast?_cons_cons] at hm
    simp only [List.getLast?_singleton, Option.some.injEq] at hm
    subst hm
    exact hB

/-- Splitting `DD.MM.YYYY` on non-digits yields its three fields. -/
theorem splitEach_dotted (dd mm yyyy : List Char)
    (hdd : ∀ b ∈ dd, isDigitChar b = true)
    (hmm : ∀ b ∈ mm, isDigitChar b = true)
    (hyy : ∀ b ∈ yyyy, isDigitChar b = true) :
    splitEachBy (fun c => !isDigitChar c) (dd ++ '.' :: (mm ++ '.' :: yyyy))
      = [dd, mm, yyyy] := by
  unfold splitEachBy
  rw [eachAux_seg_sep _ dd '.' (mm ++ '.' :: yyyy)
    (fun b hb => by simp [hdd b hb]) (by decide) []]
  rw [eachAux_seg_sep _ mm '.' yyyy (fun b hb => by simp [hmm b hb]) (by decide) []]
  rw [eachAux_seg_end _ yyyy (fun b hb => by simp [hyy b hb]) []]
  simp

/-- The characters of a packed string. -/
theorem data_mk (l : List Char) : (String.mk l).data = l :=
  rfl

/-- The fallback formatter never renders an empty string. -/
theorem formatDate_ne_nil (d : JsDate) : (formatDate d).data ≠ [] := by
  have h2 : (", " : String).data.length = 2 := rfl
  unfold formatDate
  intro h
  have hlen := congrArg List.length h
  simp only [String.data_append, List.length_append, List.length_nil] at hlen
  rw [h2] at hlen
  omega

/-- The modelled platform parser rejects a `DD.`-prefixed stamp: the year
field would have to be four digits. -/
theorem primary_dotted_fails (dd rest : List Char) (hdne : dd ≠ [])
    (hdlen : dd.length ≤ 2) (hdall : ∀ b ∈ dd, isDigitChar b = true) :
    jsDateParse (String.mk (dd ++ '.' :: rest)) = none := by
  unfold jsDateParse
  simp only [data_mk, readNat_digits_append dd '.' rest hdne hdall (by decide)]
  have hne4 : dd.length ≠ 4 := by omega
  simp [hne4]

/-- The modelled platform parser accepts an ISO-shaped stamp and preserves
every field, the time of day included. -/
theorem jsDateParse_iso (yyyy mm dd hh mi ss : List Char)
    (hylen : yyyy.length = 4) (hyall : ∀ b ∈ yyyy, isDigitChar b = true)
    (hmne : mm ≠ []) (hmlen : mm.length ≤ 2) (hmall : ∀ b ∈ mm, isDigitChar b = true)
    (hdne : dd ≠ []) (hdlen : dd.length ≤ 2) (hdall : ∀ b ∈ dd, isDigitChar b = true)
    (hhne : hh ≠ []) (hhlen : hh.length ≤ 2) (hhall : ∀ b ∈ hh, isDigitChar b = true)
    (hine : mi ≠ []) (hilen : mi.length ≤ 2) (hiall : ∀ b ∈ mi, isDigitChar b = true)
    (hsne : ss ≠ []) (hslen : ss.length ≤ 2) (hsall : ∀ b ∈ ss, isDigitChar b = true)
    (hmo1 : 0 < natOfDigits mm) (hmo2 : natOfDigits mm ≤ 12)
    (hd1 : 0 < natOfDigits dd)
    (hd2 : natOfDigits dd ≤ daysInMonth (natOfDigits yyyy) (natOfDigits mm))
    (hh23 : natOfDigits hh ≤ 23) (hi59 : natOfDigits mi ≤ 59)
    (hs59 : natOfDigits ss ≤ 59) :
    jsDateParse (String.mk (isoStamp yyyy mm dd hh mi ss)) =
      some ⟨natOfDigits yyyy, natOfDigits mm, natOfDigits dd,
        natOfDigits hh, natOfDigits mi, natOfDigits ss⟩ := by
  have hyne : yyyy ≠ [] := by
    intro h
    rw [h] at hylen
    exact absurd hylen (by decide)
  have hml0 : ¬ mm.length = 0 := by simpa using hmne
  have hml2 : ¬ mm.length > 2 := by omega
  have hdl0 : ¬ dd.length = 0 := by simpa using hdne
  have hdl2 : ¬ dd.length > 2 := by omega
  have hhl0 : ¬ hh.length = 0 := by simpa using hhne
  have hhl2 : ¬ hh.length > 2 := by omega
  have hil0 : ¬ mi.length = 0 := by simpa using hine
  have hil2 : ¬ mi.length > 2 := by omega
  have hsl0 : ¬ ss.length = 0 := by simpa using hsne
  have hsl2 : ¬ ss.length > 2 := by omega
  have hmo0 : ¬ natOfDigits mm = 0 := by omega
  have hmo12 : ¬ natOfDigits mm > 12 := by omega
  have hd0 : ¬ natOfDigits dd = 0 := by omega
  have hdim : ¬ natOfDigits dd > daysInMonth (natOfDigits yyyy) (natOfDigits mm) := by omega
  have hh23' : ¬ natOfDigits hh > 23 := by omega
  have hi59' : ¬ natOfDigits mi > 59 := by omega
  have hs59' : ¬ natOfDigits ss > 59 := by omega
  unfold jsDateParse readTime isoStamp
  simp [data_mk,
    readNat_digits_append yyyy '-' (mm ++ '-' :: (dd ++ ' ' :: (hh ++ ':' :: (mi ++ ':' :: ss))))
      hyne hyall (by decide),
    readNat_digits_append mm '-' (dd ++ ' ' :: (hh ++ ':' :: (mi ++ ':' :: ss)))
      hmne hmall (by decide),
    readNat_digits_append dd ' ' (hh ++ ':' :: (mi ++ ':' :: ss)) hdne hdall (by decide),
    readNat_digits_append hh ':' (mi ++ ':' :: ss) hhne hhall (by decide),
    readNat_digits_append mi ':' ss hine hiall (by decide),
    readNat_digits ss hsne hsall,
    expectChar, hylen,
    hml0, hml2, hdl0, hdl2, hhl0, hhl2, hil0, hil2, hsl0, hsl2,
    hmo0, hmo12, hd0, hdim, hh23', hi59', hs59']

/-- A digit is not JS whitespace. -/
theorem digit_not_ws {c : Char} (h : isDigitChar c = true) : jsWs c = false := by
  rw [Bool.eq_false_iff]
  intro hws
  unfold jsWs at hws
  simp only [Bool.or_eq_true, decide_eq_true_eq, or_assoc] at hws
  rcases hws with h1 | h1 | h1 | h1 | h1 | h1 <;>
    (subst h1; exact absurd h (by decide))

/-- C5: on a `DD.MM.YYYY HH:MM:SS`-shaped bracketed content the primary
parse fails; the normalizer splits the content on whitespace into a date
token and a remaining token, splits the date token on non-digit
separators, reverses the fields, rejoins with hyphens and reattaches the
remaining token; the retried parse then recovers a valid date carrying the
time-of-day fields, and a nonempty replacement text results. -/
theorem c5_fallback_reversal (dd mm yyyy hh mi ss : List Char)
    (hylen : yyyy.length = 4) (hyall : ∀ b ∈ yyyy, isDigitChar b = true)
    (hmne : mm ≠ []) (hmlen : mm.length ≤ 2) (hmall : ∀ b ∈ mm, isDigitChar b = true)
    (hdne : dd ≠ []) (hdlen : dd.length ≤ 2) (hdall : ∀ b ∈ dd, isDigitChar b = true)
    (hhne : hh ≠ []) (hhlen : hh.length ≤ 2) (hhall : ∀ b ∈ hh, isDigitChar b = true)
    (hine : mi ≠ []) (hilen : mi.length ≤ 2) (hiall : ∀ b ∈ mi, isDigitChar b = true)
    (hsne : ss ≠ []) (hslen : ss.length ≤ 2) (hsall : ∀ b ∈ ss, isDigitChar b = true)
    (hmo1 : 0 < natOfDigits mm) (hmo2 : natOfDigits mm ≤ 12)
    (hd1 : 0 < natOfDigits dd)
    (hd2 : natOfDigits dd ≤ daysInMonth (natOfDigits yyyy) (natOfDigits mm))
    (hh23 : natOfDigits hh ≤ 23) (hi59 : natOfDigits mi ≤ 59)
    (hs59 : natOfDigits ss ≤ 59)
    (hms : epochMs ⟨natOfDigits yyyy, natOfDigits mm, natOfDigits dd,
      natOfDigits hh, natOfDigits mi, natOfDigits ss⟩ ≠ 0) :
    dateParseTruthy (String.mk (dottedStamp dd mm yyyy hh mi ss)) = false ∧
      fallbackDateTimeString (dottedStamp dd mm yyyy hh mi ss)
        = isoStamp yyyy mm dd hh mi ss ∧
      jsDateParse (String.mk (isoStamp yyyy mm dd hh mi ss))
        = some ⟨natOfDigits yyyy, natOfDigits mm, natOfDigits dd,
            natOfDigits hh, natOfDigits mi, natOfDigits ss⟩ ∧
      newDateTextFor (dottedStamp dd mm yyyy hh mi ss)
        = (formatDate ⟨natOfDigits yyyy, natOfDigits mm, natOfDigits dd,
            natOfDigits hh, natOfDigits mi, natOfDigits ss⟩).data ∧
      newDateTextFor (dottedStamp dd mm yyyy hh mi ss) ≠ [] := by
  have hprim := primary_dotted_fails dd
    (mm ++ '.' :: (yyyy ++ ' ' :: (hh ++ ':' :: (mi ++ ':' :: ss)))) hdne hdlen hdall
  have hstamp : dottedStamp dd mm yyyy hh mi ss
      = dd ++ '.' :: (mm ++ '.' :: (yyyy ++ ' ' :: (hh ++ ':' :: (mi ++ ':' :: ss)))) := rfl
  have conj1 : dateParseTruthy (String.mk (dottedStamp dd mm yyyy hh mi ss)) = false := by
    rw [dateParseTruthy, hstamp, hprim]
  have conj3 := jsDateParse_iso yyyy mm dd hh mi ss hylen hyall hmne hmlen hmall
    hdne hdlen hdall hhne hhlen hhall hine hilen hiall hsne hslen hsall
    hmo1 hmo2 hd1 hd2 hh23 hi59 hs59
  have hAne : dd ++ '.' :: (mm ++ '.' :: yyyy) ≠ [] := by
    cases dd with
    | nil => exact absurd rfl hdne
    | cons c t => simp
  have hBne : hh ++ ':' :: (mi ++ ':' :: ss) ≠ [] := by
    cases hh with
    | nil => exact absurd rfl hhne
    | cons c t => simp
  have hAf : ∀ c ∈ dd ++ '.' :: (mm ++ '.' :: yyyy), jsWs c = false := by
    intro c hc
    simp only [List.mem_append, List.mem_cons] at hc
    rcases hc with hc | rfl | hc | rfl | hc
    · exact digit_not_ws (hdall c hc)
    · decide
    · exact digit_not_ws (hmall c hc)
    · decide
    · exact digit_not_ws (hyall c hc)
  have hBf : ∀ c ∈ hh ++ ':' :: (mi ++ ':' :: ss), jsWs c = false := by
    intro c hc
    simp only [List.mem_append, List.mem_cons] at hc
    rcases hc with hc | rfl | hc | rfl | hc
    · exact digit_not_ws (hhall c hc)
    · decide
    · exact digit_not_ws (hiall c hc)
    · decide
    · exact digit_not_ws (hsall c hc)
  have hshape : dottedStamp dd mm yyyy hh mi ss
      = (dd ++ '.' :: (mm ++ '.' :: yyyy)) ++ ' ' :: (hh ++ ':' :: (mi ++ ':' :: ss)) := by
    rw [hstamp]
    simp [List.append_assoc]
  have hsplit : splitRunsBy jsWs (dottedStamp dd mm yyyy hh mi ss)
      = [dd ++ '.' :: (mm ++ '.' :: yyyy), hh ++ ':' :: (mi ++ ':' :: ss)] := by
    rw [hshape]
    exact splitRuns_two jsWs ' ' _ _ (by decide) hAne hBne hAf hBf
  have hAe : (dd ++ '.' :: (mm ++ '.' :: yyyy)).isEmpty = false := by
    cases dd with
    | nil => exact absurd rfl hdne
    | cons c t => rfl
  have conj2 : fallbackDateTimeString (dottedStamp dd mm yyyy hh mi ss)
      = isoStamp yyyy mm dd hh mi ss := by
    simp only [fallbackDateTimeString, hsplit, hAe]
    simp [splitEach_dotted dd mm yyyy hdall hmall hyall, joinWith, isoStamp,
      List.append_assoc]
  have conj4t : dateParseTruthy (String.mk (isoStamp yyyy mm dd hh mi ss)) = true := by
    rw [dateParseTruthy, conj3]
    simp [hms]
  have conj4 : newDateTextFor (dottedStamp dd mm yyyy hh mi ss)
      = (formatDate ⟨natOfDigits yyyy, natOfDigits mm, natOfDigits dd,
          natOfDigits hh, natOfDigits mi, natOfDigits ss⟩).data := by
    simp only [newDateTextFor, conj1, Bool.false_eq_true, if_false, conj2, conj4t,
      if_true, conj3]
  refine ⟨conj1, conj2, conj3, conj4, ?_⟩
  rw [conj4]
  exact formatDate_ne_nil _

/-- C5 witness: the fixture `07.01.2020 08:56:45`. -/
theorem c5_fallback_reversal_witness :
    dateParseTruthy (String.mk
        (dottedStamp "07".data "01".data "2020".data "08".data "56".data "45".data)) = false ∧
      fallbackDateTimeString
          (dottedStamp "07".data "01".data "2020".data "08".data "56".data "45".data)
        = isoStamp "2020".data "01".data "07".data "08".data "56".data "45".data ∧
      jsDateParse (String.mk
          (isoStamp "2020".data "01".data "07".data "08".data "56".data "45".data))
        = some ⟨natOfDigits "2020".data, natOfDigits "01".data, natOfDigits "07".data,
            natOfDigits "08".data, natOfDigits "56".data, natOfDigits "45".data⟩ ∧
      newDateTextFor
          (dottedStamp "07".data "01".data "2020".data "08".data "56".data "45".data)
        = (formatDate ⟨natOfDigits "2020".data, natOfDigits "01".data, natOfDigits "07".data,
            natOfDigits "08".data, natOfDigits "56".data, natOfDigits "45".data⟩).data ∧
      newDateTextFor
          (dottedStamp "07".data "01".data "2020".data "08".data "56".data "45".data) ≠ [] :=
  c5_fallback_reversal "07".data "01".data "2020".data "08".data "56".data "45".data
    (by decide) (by decide) (by decide) (by decide) (by decide) (by decide) (by decide)
    (by decide) (by decide) (by decide) (by decide) (by decide) (by decide) (by decide)
    (by decide) (by decide) (by decide) (by decide) (by decide) (by decide) (by decide)
    (by decide) (by decide) (by decide) (by decide)

/-- The single-char splitter distributes over a separator occurrence. -/
theorem eachAux_split (p : Char → Bool) (s : Char) (hs : p s = true) :
    ∀ (xs ys acc : List Char),
      eachAux p (xs ++ s :: ys) acc = eachAux p xs acc ++ eachAux p ys [] := by
  intro xs
  induction xs with
  | nil => intro ys acc; simp [eachAux, hs]
  | cons c xs ih =>
    intro ys acc
    by_cases hc : p c = true
    · simp only [List.cons_append, eachAux, hc, if_true, List.append_eq]
      rw [ih]
    · have hc' : p c = false := by
        revert hc
        cases p c <;> simp
      simp only [List.cons_append, eachAux, hc', Bool.false_eq_true, if_false, List.append_eq]
      exact ih ys (c :: acc)

/-- `split('\n')` distributes over a newline. -/
theorem lineSplit_append (xs ys : List Char) :
    lineSplit (xs ++ '\n' :: ys) = lineSplit xs ++ lineSplit ys :=
  eachAux_split _ '\n' (by simp) xs ys []

/-- `split('\n')` of a newline-free string is that string alone. -/
theorem lineSplit_single (l : List Char) (h : ∀ c ∈ l, c ≠ '\n') :
    lineSplit l = [l] := by
  unfold lineSplit splitEachBy
  rw [eachAux_seg_end _ l (fun b hb => by simp [h b hb]) []]
  simp

/-- `split('\n')` of newline-terminated lines recovers the lines, plus the
final empty piece after the trailing newline. -/
theorem lineSplit_foldr :
    ∀ (ls : List (List Char)), (∀ l ∈ ls, ∀ c ∈ l, c ≠ '\n') →
      lineSplit (ls.foldr (fun l r => l ++ '\n' :: r) []) = ls ++ [[]] := by
  intro ls
  induction ls with
  | nil => intro _; rfl
  | cons l ls ih =>
    intro h
    show lineSplit (l ++ '\n' :: ls.foldr (fun l r => l ++ '\n' :: r) []) = _
    rw [lineSplit_append, lineSplit_single l (h l (by simp)),
      ih fun x hx => h x (by simp [hx])]
    simp

/-- Searching for a needle beyond a segment free of its first character. -/
theorem fm_skip (n0 : Char) (ns xs ys : List Char) (hxs : ∀ c ∈ xs, c ≠ n0) :
    firstMatchIdx (n0 :: ns) (xs ++ ys)
      = (firstMatchIdx (n0 :: ns) ys).map (xs.length + ·) := by
  induction xs with
  | nil =>
    simp only [List.nil_append, List.length_nil]
    cases firstMatchIdx (n0 :: ns) ys <;> simp
  | cons x xs ih =>
    have hx : x ≠ n0 := hxs x (by simp)
    have hpf : ((n0 :: ns).isPrefixOf (x :: (xs ++ ys))) = false := by
      rw [Bool.eq_false_iff]
      intro hT
      simp [List.isPrefixOf] at hT
      exact hx hT.1.symm
    rw [List.cons_append, firstMatchIdx_cons, hpf]
    simp only [Bool.false_eq_true, if_false]
    rw [ih fun c hc => hxs c (by simp [hc])]
    cases firstMatchIdx (n0 :: ns) ys with
    | none => simp
    | some j =>
      simp only [Option.map_some', List.length_cons]
      congr 1
      omega

/-- A first-occurrence replace beyond a segment free of the needle's first
character keeps that segment as a prefix. -/
theorem replaceFirstL_append_head (n0 : Char) (ns repl A t : List Char)
    (hA : ∀ c ∈ A, c ≠ n0) :
    ∃ t', replaceFirstL (n0 :: ns) repl (A ++ t) = A ++ t' := by
  unfold replaceFirstL
  rw [fm_skip n0 ns A t hA]
  cases hfm : firstMatchIdx (n0 :: ns) t with
  | none => exact ⟨t, rfl⟩
  | some j =>
    refine ⟨t.take j ++ repl ++ t.drop (j + (n0 :: ns).length), ?_⟩
    simp only [Option.map_some']
    rw [List.take_append j, Nat.add_assoc, List.drop_append (j + (n0 :: ns).length)]
    simp [List.append_assoc]

/-- The dialogue template starts with the literal `Dialogue: 0,`. -/
theorem lineTemplate_split :
    lineTemplate = "Dialogue: 0,".data ++ "{start},{end},Default,,0,0,0,,{text}".data := by
  decide

/-- Every rendered line starts with the literal `Dialogue: 0,`. -/
theorem renderLine_head (st en tx : List Char) :
    ∃ t, renderLine st en tx = "Dialogue: 0,".data ++ t := by
  have hA : ∀ c ∈ "Dialogue: 0,".data, c ≠ '{' := by decide
  unfold renderLine
  rw [lineTemplate_split]
  rw [show ("{start}".data : List Char) = '\x7b' :: "start\x7d".data from rfl,
    show ("{end}".data : List Char) = '\x7b' :: "end\x7d".data from rfl,
    show ("{text}".data : List Char) = '\x7b' :: "text\x7d".data from rfl]
  obtain ⟨t1, h1⟩ := replaceFirstL_append_head '\x7b' "start\x7d".data st "Dialogue: 0,".data
    "{start},{end},Default,,0,0,0,,{text}".data hA
  rw [h1]
  obtain ⟨t2, h2⟩ := replaceFirstL_append_head '\x7b' "end\x7d".data en "Dialogue: 0,".data t1 hA
  rw [h2]
  obtain ⟨t3, h3⟩ := replaceFirstL_append_head '\x7b' "text\x7d".data tx "Dialogue: 0,".data t2 hA
  rw [h3]
  exact ⟨t3, rfl⟩

/-- Each line in a successful `mapM` run comes from some block. -/
theorem mapM_ok_mem :
    ∀ (bs ls : List (List Char)),
      bs.mapM processBlock = Except.ok ls →
      ∀ l ∈ ls, ∃ b ∈ bs, processBlock b = Except.ok l := by
  intro bs
  induction bs with
  | nil =>
    intro ls h l hl
    have h2 : Except.ok ([] : List (List Char)) = Except.ok ls := h
    injection h2 with h3
    subst h3
    exact absurd hl (by simp)
  | cons b bs ih =>
    intro ls h l hl
    rw [List.mapM_cons] at h
    cases hpb : processBlock b with
    | error e =>
      rw [hpb] at h
      exact Except.noConfusion h
    | ok line =>
      rw [hpb] at h
      have h2 : (bs.mapM processBlock >>= fun ls' =>
          pure (line :: ls') : Except JsError (List (List Char))) = Except.ok ls := h
      cases hbs : bs.mapM processBlock with
      | error e =>
        rw [hbs] at h2
        exact Except.noConfusion h2
      | ok ls' =>
        rw [hbs] at h2
        have h3 : Except.ok (line :: ls') = Except.ok ls := h2
        injection h3 with h4
        subst h4
        rcases List.mem_cons.mp hl with rfl | hl
        · exact ⟨b, by simp, hpb⟩
        · obtain ⟨b', hb', hpb'⟩ := ih ls' hbs l hl
          exact ⟨b', by simp [hb'], hpb'⟩

/-- The document fold equals the header plus the newline-terminated
rendered lines, in block order. -/
theorem foldl_body :
    ∀ (blocks ls : List (List Char)) (acc : List Char),
      blocks.mapM processBlock = Except.ok ls →
      List.foldlM (fun acc b => (processBlock b).map fun line => acc ++ line ++ ['\n'])
          acc blocks
        = Except.ok (acc ++ ls.foldr (fun l r => l ++ '\n' :: r) []) := by
  intro blocks
  induction blocks with
  | nil =>
    intro ls acc h
    have h2 : Except.ok ([] : List (List Char)) = Except.ok ls := h
    injection h2 with h3
    subst h3
    simp only [List.foldr_nil, List.append_nil, List.foldlM_nil]
    rfl
  | cons b bs ih =>
    intro ls acc h
    rw [List.mapM_cons] at h
    cases hpb : processBlock b with
    | error e =>
      rw [hpb] at h
      exact Except.noConfusion h
    | ok line =>
      rw [hpb] at h
      have h2 : (bs.mapM processBlock >>= fun ls' =>
          pure (line :: ls') : Except JsError (List (List Char))) = Except.ok ls := h
      cases hbs : bs.mapM processBlock with
      | error e =>
        rw [hbs] at h2
        exact Except.noConfusion h2
      | ok ls' =>
        rw [hbs] at h2
        have h3 : Except.ok (line :: ls') = Except.ok ls := h2
        injection h3 with h4
        subst h4
        rw [List.foldlM_cons, hpb]
        have h5 := ih ls' (acc ++ line ++ ['\n']) hbs
        have hgoal : List.foldlM
            (fun acc b => (processBlock b).map fun line => acc ++ line ++ ['\n'])
            (acc ++ line ++ ['\n']) bs
            = Except.ok (acc ++ (line :: ls').foldr (fun l r => l ++ '\n' :: r) []) := by
          rw [h5]
          simp [List.append_assoc]
        exact hgoal

set_option maxRecDepth 8000 in
/-- C9: for a present regular source file whose blocks all process, the
emitted document is the header followed by one newline-terminated dialogue
line per retained block, in block order; splitting the document on
newlines yields the header lines, then exactly the rendered lines in
order, then the empty piece after the trailing newline; every rendered
line begins with `Dialogue: 0,` and no header line does. -/
theorem c9_dialogue_lines_order (probe : FsProbe) (srt : String) (ls : List (List Char))
    (hex : (getPathInfo probe).pathExists = true)
    (hfile : (getPathInfo probe).isFile = true)
    (hls : (srtDataOf srt).mapM processBlock = Except.ok ls)
    (hnl : ∀ l ∈ ls, ∀ c ∈ l, c ≠ '\n') :
    srtToAss probe srt = Except.ok (some (String.mk (assPreamble.data ++ '\n' ::
        ls.foldr (fun l r => l ++ '\n' :: r) []))) ∧
      lineSplit (assPreamble.data ++ '\n' :: ls.foldr (fun l r => l ++ '\n' :: r) [])
        = lineSplit assPreamble.data ++ ls ++ [[]] ∧
      (∀ l ∈ ls, ∃ t, l = "Dialogue: 0,".data ++ t) ∧
      (∀ p ∈ lineSplit assPreamble.data, ("Dialogue: 0,".data.isPrefixOf p) = false) := by
  refine ⟨?_, ?_, ?_, by decide⟩
  · unfold srtToAss srtToAssBody
    rw [hex, hfile]
    simp only [Bool.not_true, Bool.or_self, Bool.false_eq_true, if_false]
    rw [foldl_body (srtDataOf srt) ls (assPreamble.data ++ ['\n']) hls]
    simp only [List.append_assoc, List.singleton_append]
    rfl
  · rw [lineSplit_append, lineSplit_foldr ls hnl, List.append_assoc]
  · intro l hl
    obtain ⟨b, _, hpb⟩ := mapM_ok_mem (srtDataOf srt) ls hls l hl
    unfold processBlock at hpb
    split at hpb
    next t0 t1 rest heq =>
      injection hpb with hpb'
      subst hpb'
      exact renderLine_head _ _ _
    next => exact Except.noConfusion hpb

set_option maxRecDepth 8000 in
/-- C9 witness: a two-cue source file. -/
theorem c9_dialogue_lines_order_witness :
    srtToAss (FsProbe.stats false true)
        "1\n00:00:01,000 --> 00:00:04,000\nHello\n\n2\n00:00:05,000 --> 00:00:08,000\nWorld\n"
      = Except.ok (some (String.mk (assPreamble.data ++ '\n' ::
          (["Dialogue: 0,0:00:01.00,0:00:04.00,Default,,0,0,0,,Hello".data,
            "Dialogue: 0,0:00:05.00,0:00:08.00,Default,,0,0,0,,World".data].foldr
            (fun l r => l ++ '\n' :: r) [])))) ∧
      lineSplit (assPreamble.data ++ '\n' ::
          (["Dialogue: 0,0:00:01.00,0:00:04.00,Default,,0,0,0,,Hello".data,
            "Dialogue: 0,0:00:05.00,0:00:08.00,Default,,0,0,0,,World".data].foldr
            (fun l r => l ++ '\n' :: r) []))
        = lineSplit assPreamble.data ++
            ["Dialogue: 0,0:00:01.00,0:00:04.00,Default,,0,0,0,,Hello".data,
              "Dialogue: 0,0:00:05.00,0:00:08.00,Default,,0,0,0,,World".data] ++ [[]] ∧
      (∀ l ∈ (["Dialogue: 0,0:00:01.00,0:00:04.00,Default,,0,0,0,,Hello".data,
          "Dialogue: 0,0:00:05.00,0:00:08.00,Default,,0,0,0,,World".data] :
            List (List Char)),
        ∃ t, l = "Dialogue: 0,".data ++ t) ∧
      (∀ p ∈ lineSplit assPreamble.data, ("Dialogue: 0,".data.isPrefixOf p) = false) :=
  c9_dialogue_lines_order (FsProbe.stats false true)
    "1\n00:00:01,000 --> 00:00:04,000\nHello\n\n2\n00:00:05,000 --> 00:00:08,000\nWorld\n"
    ["Dialogue: 0,0:00:01.00,0:00:04.00,Default,,0,0,0,,Hello".data,
      "Dialogue: 0,0:00:05.00,0:00:08.00,Default,,0,0,0,,World".data]
    rfl rfl (by decide) (by decide)

/-- C10: the bracketed content `1970-01-01T00:00:00Z` parses to exactly the
Unix epoch, whose millisecond value 0 is falsy, so the source treats it as
unparseable; the fallback reversal string fails to parse as well, and the
text keeps the literal bracketed span with no error. -/
theorem c10_epoch_falsy :
    jsDateParse "1970-01-01T00:00:00Z" = some ⟨1970, 1, 1, 0, 0, 0⟩ ∧
      epochMs ⟨1970, 1, 1, 0, 0, 0⟩ = 0 ∧
      dateParseTruthy "1970-01-01T00:00:00Z" = false ∧
      dateParseTruthy (String.mk (fallbackDateTimeString "1970-01-01T00:00:00Z".data))
        = false ∧
      dateStep "[1970-01-01T00:00:00Z]".data = "[1970-01-01T00:00:00Z]".data := by
  decide

end Vconcat

